import Mathlib

/-!
A shallow embedding of the Lispy Scheme interpreter (`src/lis.py`) together
with proofs about its parser, environment model and evaluator.

Modelling conventions:
* Python `int` is `Int`; Python `float` is modelled as an exact rational `ℚ`
  (the claims under verification only evaluate floating arithmetic at points
  where IEEE doubles are exact, e.g. `15 / 3 = 5.0`).
* Host primitives (`int(tok)`, `float(tok)`, `str(...)`, `str.split()`) are
  modelled explicitly on character lists; the models cover the decimal forms
  the interpreter's tokens can take (underscore grouping, unicode digits,
  exponent/`inf`/`nan` spellings of the host parsers are outside the model).
* Python environments (`Env(dict)` with an `outer` pointer) become indices
  into a `Store`, a growing list of frames; mutation is functional update.
* The evaluator is given explicit fuel (structural recursion); `Err.fuelOut`
  is the fuel-exhaustion marker and is distinct from every Python exception.
-/

namespace Lispy

/-! ### Characters and tokens -/

/-- Whitespace test used by the model of Python `str.split()`. -/
def isWs (c : Char) : Bool := c.isWhitespace

/-- `tokenize` padding step: from `s.replace("(", " ( ").replace(")", " ) ")`. -/
def pad : List Char → List Char
  | [] => []
  | c :: cs =>
    if c = '(' then ' ' :: '(' :: ' ' :: pad cs
    else if c = ')' then ' ' :: ')' :: ' ' :: pad cs
    else c :: pad cs

/-- Accumulator-passing model of Python `str.split()` (split on whitespace
runs, dropping empty pieces).  `acc` holds the current token, reversed. -/
def splitWsAux : List Char → List Char → List (List Char)
  | [], acc => if acc.isEmpty then [] else [acc.reverse]
  | c :: cs, acc =>
    if isWs c then
      if acc.isEmpty then splitWsAux cs [] else acc.reverse :: splitWsAux cs []
    else splitWsAux cs (c :: acc)

def splitWs (cs : List Char) : List (List Char) := splitWsAux cs []

/-- `tokenize` from `lis.py`: pad parentheses with spaces, then split. -/
def tokenizeChars (cs : List Char) : List (List Char) := splitWs (pad cs)

def tokenize (s : String) : List String := (tokenizeChars s.data).map String.mk

/-! ### Decimal digits: models of host `str(int)` / `int(str)` / `float(str)` -/

def digitChar (d : Nat) : Char := Char.ofNat (48 + d)

def digitVal (c : Char) : Nat := c.toNat - 48

/-- Value of a digit string, most significant digit first. -/
def digitsVal (cs : List Char) : Nat := cs.foldl (fun a c => 10 * a + digitVal c) 0

/-- Decimal digits of `n`, most significant first (fuel-indexed so that it is
structurally recursive and hence computes inside the kernel). -/
def natDigitsAux : Nat → Nat → List Char
  | 0, _ => []
  | f + 1, n => if n < 10 then [digitChar n] else natDigitsAux f (n / 10) ++ [digitChar (n % 10)]

def natDigits (n : Nat) : List Char := natDigitsAux (n + 1) n

/-- Model of Python `str` on an `int`. -/
def intStr (n : Int) : List Char :=
  if n < 0 then '-' :: natDigits (-n).toNat else natDigits n.toNat

/-- Digit-run recogniser for the `int(tok)` model. -/
def natCore (cs : List Char) : Option Nat :=
  if cs.isEmpty then none
  else if cs.all Char.isDigit then some (digitsVal cs) else none

/-- Model of the host `int(tok)` conversion used by `atom`: optional sign
followed by decimal digits. -/
def pyIntParse : List Char → Option Int
  | [] => Option.none
  | c :: cs =>
    if c = '+' then (natCore cs).map Int.ofNat
    else if c = '-' then (natCore cs).map (fun n => -(n : Int))
    else (natCore (c :: cs)).map Int.ofNat

/-- Assembly step of the `float(tok)` model, given the leading digit run
`ip` and the remainder `rest` of the token. -/
def pyFloatSplit (ip rest : List Char) : Option ℚ :=
  match rest with
  | [] => if ip.isEmpty then none else some (mkRat (digitsVal ip) 1)
  | c :: fs =>
    if c = '.' then
      if fs.all Char.isDigit && !(ip.isEmpty && fs.isEmpty) then
        some (mkRat (digitsVal ip * 10 ^ fs.length + digitsVal fs) (10 ^ fs.length))
      else none
    else none

/-- Unsigned part of the host `float(tok)` model: `digits`, `digits.digits`,
`digits.` or `.digits`.  The value is assembled with `mkRat` so the result is
a normalised rational. -/
def pyFloatCore (cs : List Char) : Option ℚ :=
  pyFloatSplit (cs.takeWhile Char.isDigit) (cs.drop (cs.takeWhile Char.isDigit).length)

/-- Model of the host `float(tok)` conversion used by `atom`. -/
def pyFloatParse : List Char → Option ℚ
  | [] => Option.none
  | c :: cs =>
    if c = '+' then pyFloatCore cs
    else if c = '-' then (pyFloatCore cs).map Neg.neg
    else pyFloatCore (c :: cs)

/-- Number of fractional digits used when rendering the rational `q` as a
float: enough tens to clear the denominator (the denominator of any value
produced by `pyFloatParse` is of the form `2^a * 5^b`). -/
def fracDigitsLen (q : ℚ) : Nat :=
  max 1 (max (q.den.primeFactorsList.count 2) (q.den.primeFactorsList.count 5))

/-- Digits of `F` left-padded with zeros to width `k`. -/
def padDigits (f k : Nat) : List Char :=
  List.replicate (k - (natDigits f).length) '0' ++ natDigits f

/-- Decimal rendering of a nonnegative rational with a denominator of the
form `2^a * 5^b`. -/
def floatStrCore (q : ℚ) : List Char :=
  let k := fracDigitsLen q
  let scaled := q.num.toNat * 10 ^ k / q.den
  natDigits (scaled / 10 ^ k) ++ '.' :: padDigits (scaled % 10 ^ k) k

/-- Model of Python `str` on a `float`: sign plus decimal digits with a
decimal point.  (The host switches to scientific form for extreme magnitudes
and prints the shortest round-tripping digits; the model always prints plain
exact decimals, which is value-faithful and reparsable.) -/
def floatStr (q : ℚ) : List Char :=
  if q < 0 then '-' :: floatStrCore (-q) else floatStrCore q

/-! ### Expressions -/

/-- A parsed expression: Python `int | float | str | list` trees. -/
inductive Expr where
  | int (n : Int)
  | float (q : ℚ)
  | sym (s : String)
  | list (xs : List Expr)

/-- `atom` from `lis.py`: try `int(token)`, then `float(token)`, else the
token is a symbol. -/
def atom (t : String) : Expr :=
  match pyIntParse t.data with
  | some n => .int n
  | none =>
    match pyFloatParse t.data with
    | some q => .float q
    | none => .sym t

/-! ### Errors -/

/-- The error kinds the interpreter can surface (Python exception classes),
plus the fuel-exhaustion marker of the embedding. -/
inductive Err where
  | syntaxError (msg : String)
  | nameError (var : String)
  | typeError (msg : String)
  | valueError
  | indexError
  | zeroDivision
  | notModelled (what : String)
  | fuelOut
deriving DecidableEq

/-! ### Reader -/

mutual

/-- `read_from_tokens` from `lis.py`, with the destructive pop-front of the
Python list modelled by returning the remaining tokens.  Structural fuel
makes the mutual recursion kernel-computable; `parse` supplies fuel
`2 * tokens + 2`, which the round-trip proofs show is enough for every
token list the renderer can produce. -/
def readFrom : Nat → List String → Except Err (Expr × List String)
  | 0, _ => .error .fuelOut
  | _ + 1, [] => .error (.syntaxError "unexpected EOF while reading")
  | fuel + 1, t :: ts =>
    if t = "(" then
      match readSeq fuel ts with
      | .error err => .error err
      | .ok (xs, rest) => .ok (.list xs, rest)
    else if t = ")" then .error (.syntaxError "unexpected )")
    else .ok (atom t, ts)

/-- The `while`-loop of `read_from_tokens`: read elements until a `)`. -/
def readSeq : Nat → List String → Except Err (List Expr × List String)
  | 0, _ => .error .fuelOut
  | _ + 1, [] =>
    .error (.syntaxError "unexpected EOF while reading - missing closing parenthesis")
  | fuel + 1, t :: ts =>
    if t = ")" then .ok ([], ts)
    else
      match readFrom fuel (t :: ts) with
      | .error err => .error err
      | .ok (e, rest) =>
        match readSeq fuel rest with
        | .error err => .error err
        | .ok (xs, rest') => .ok (e :: xs, rest')

end

/-- `parse` from `lis.py`: tokenize, then read a single expression (trailing
tokens are ignored, as in the source). -/
def parse (s : String) : Except Err Expr :=
  match readFrom (2 * (tokenize s).length + 2) (tokenize s) with
  | .error err => .error err
  | .ok (e, _) => .ok e

/-! ### Renderer -/

mutual

/-- `lispstr` from `lis.py` on expressions, at character level: lists render
as parenthesised space-separated elements, atoms via the host `str`. -/
def renderChars : Expr → List Char
  | .int n => intStr n
  | .float q => floatStr q
  | .sym s => s.data
  | .list xs => '(' :: renderSep xs ++ [')']
  termination_by structural e => e

/-- `" ".join(map(lispstr, exp))` at character level. -/
def renderSep : List Expr → List Char
  | [] => []
  | [x] => renderChars x
  | x :: y :: xs => renderChars x ++ ' ' :: renderSep (y :: xs)
  termination_by structural xs => xs

end

/-- `lispstr` from `lis.py` (returning a `String`). -/
def lispstr (e : Expr) : String := String.mk (renderChars e)

/-! ### Values and environments -/

/-- Run-time values.  Python's dynamic typing becomes a closed tagged union:
numbers, symbols, booleans, lists, `None` (the result of `define`/`set!`),
user procedures (`Procedure` instances: raw parameter spec, body, captured
environment) and the built-in procedures of `standard_env` (tagged by name). -/
inductive Value where
  | int (n : Int)
  | float (q : ℚ)
  | sym (s : String)
  | bool (b : Bool)
  | list (xs : List Value)
  | none
  | closure (parms : Expr) (body : Expr) (env : Nat)
  | builtin (name : String)

/-- One `Env` object: its `dict` contents (later bindings shadow earlier
ones, as newest entries sit at the head) and its `outer` pointer. -/
structure Frame where
  table : List (String × Value)
  outer : Option Nat

/-- The heap of environments; an environment is an index into `frames`.
Python creates frames at `standard_env()` and on every `Procedure` call;
frames are never removed, matching reference semantics without modelling
garbage collection. -/
structure Store where
  frames : List Frame

/-- Creating a new `Env` object (appended, so existing indices survive). -/
def Store.push (σ : Store) (fr : Frame) : Store := ⟨σ.frames ++ [fr]⟩

/-- `env[var] = val` on frame `i`: newest binding shadows older entries. -/
def Store.setIn (σ : Store) (i : Nat) (s : String) (v : Value) : Store :=
  match σ.frames[i]? with
  | some fr => ⟨σ.frames.set i ⟨(s, v) :: fr.table, fr.outer⟩⟩
  | Option.none => σ

/-- `Env.find` from `lis.py`: the innermost environment of the outer-chain
in which `s` appears, or `none` (Python raises `NameError`).  The fuel is
instantiated with `σ.frames.length`, which suffices because every frame's
`outer` pointer refers to an older (smaller-index) frame. -/
def findFrom (σ : Store) (s : String) : Nat → Nat → Option Nat
  | 0, _ => Option.none
  | f + 1, e =>
    match σ.frames[e]? with
    | Option.none => Option.none
    | some fr =>
      if (fr.table.lookup s).isSome then some e
      else
        match fr.outer with
        | some o => findFrom σ s f o
        | Option.none => Option.none

/-- The outer-chain of environments starting at `e` (specification device
for stating that `find` selects the nearest binding frame). -/
def envChain (σ : Store) : Nat → Nat → List Nat
  | 0, _ => []
  | f + 1, e =>
    match σ.frames[e]? with
    | Option.none => []
    | some fr =>
      e :: (match fr.outer with
            | some o => envChain σ f o
            | Option.none => [])

/-- Does frame `i` bind the name `s` (`var in self` in `Env.find`)? -/
def bindsVar (σ : Store) (s : String) (i : Nat) : Bool :=
  match σ.frames[i]? with
  | some fr => (fr.table.lookup s).isSome
  | Option.none => false

mutual

/-- `quote` returns the sub-expression itself; structurally transporting the
`Expr` into the `Value` domain (in Python the very same object is used). -/
def exprToValue : Expr → Value
  | .int n => .int n
  | .float q => .float q
  | .sym s => .sym s
  | .list xs => .list (exprToValueL xs)

def exprToValueL : List Expr → List Value
  | [] => []
  | x :: xs => exprToValue x :: exprToValueL xs

end

/-! ### Numeric helpers (host `int`/`float` arithmetic, `bool` as `int`) -/

/-- Values Python treats as `int` in arithmetic (`bool` is an `int`
subclass). -/
def asInt : Value → Option Int
  | .int n => some n
  | .bool b => some (if b then 1 else 0)
  | _ => Option.none

/-- Values Python treats as numbers, as exact rationals.  Built with `mkRat`
rather than casts so all arithmetic computes inside the kernel. -/
def asQ : Value → Option ℚ
  | .int n => some (mkRat n 1)
  | .bool b => some (mkRat (if b then 1 else 0) 1)
  | .float q => some q
  | _ => Option.none

def qadd (a b : ℚ) : ℚ := mkRat (a.num * b.den + b.num * a.den) (a.den * b.den)

def qsub (a b : ℚ) : ℚ := mkRat (a.num * b.den - b.num * a.den) (a.den * b.den)

def qmul (a b : ℚ) : ℚ := mkRat (a.num * b.num) (a.den * b.den)

/-- Exact division of rationals (used by `op.truediv`; the divisor is known
to be nonzero at every call site). -/
def qdiv (a b : ℚ) : ℚ :=
  if 0 ≤ b.num then mkRat (a.num * b.den) (a.den * b.num.toNat)
  else mkRat (-(a.num * b.den)) (a.den * (-b.num).toNat)

/-- `variadic_add` (`sum(args)`): all-`int` input stays `int`; any float
makes the result float; a non-number raises `TypeError`. -/
def addVals (args : List Value) : Except Err Value :=
  match args.mapM asInt with
  | some ns => .ok (.int (ns.foldl (· + ·) 0))
  | Option.none =>
    match args.mapM asQ with
    | some qs => .ok (.float (qs.foldl qadd (mkRat 0 1)))
    | Option.none => .error (.typeError "unsupported operand type")

/-- `variadic_mul`: as `addVals` but with product and unit 1. -/
def mulVals (args : List Value) : Except Err Value :=
  match args.mapM asInt with
  | some ns => .ok (.int (ns.foldl (· * ·) 1))
  | Option.none =>
    match args.mapM asQ with
    | some qs => .ok (.float (qs.foldl qmul (mkRat 1 1)))
    | Option.none => .error (.typeError "unsupported operand type")

/-- `op.sub`, binary. -/
def subVal (a b : Value) : Except Err Value :=
  match asInt a, asInt b with
  | some m, some n => .ok (.int (m - n))
  | _, _ =>
    match asQ a, asQ b with
    | some qa, some qb => .ok (.float (qsub qa qb))
    | _, _ => .error (.typeError "unsupported operand type")

/-- `op.truediv`: always a float result, `ZeroDivisionError` on a zero
divisor. -/
def divVal (a b : Value) : Except Err Value :=
  match asQ a, asQ b with
  | some qa, some qb =>
    if qb.num = 0 then .error .zeroDivision else .ok (.float (qdiv qa qb))
  | _, _ => .error (.typeError "unsupported operand type")

/-- Host `<` on two values: numbers compare numerically, strings
lexicographically; anything else raises `TypeError`. -/
def ltVal (a b : Value) : Except Err Bool :=
  match asQ a, asQ b with
  | some qa, some qb => .ok (Rat.blt qa qb)
  | _, _ =>
    match a, b with
    | .sym s, .sym t => .ok (decide (s < t))
    | _, _ => .error (.typeError "unorderable types")

mutual

/-- Structural `Bool` equality of expressions (used for closure values,
where the host compares object identity; see `pyEqB`). -/
def beqExpr : Expr → Expr → Bool
  | .int m, .int n => m == n
  | .float p, .float q => p == q
  | .sym s, .sym t => s == t
  | .list xs, .list ys => beqExprL xs ys
  | _, _ => false

def beqExprL : List Expr → List Expr → Bool
  | [], [] => true
  | x :: xs, y :: ys => beqExpr x y && beqExprL xs ys
  | _, _ => false

end

mutual

/-- Host `==` on values (`op.eq`): numbers (including booleans) compare by
value across kinds, sequences elementwise, different kinds are unequal.
Procedure values compare structurally here, whereas the host falls back to
object identity — equal only for the very same object; no claim under
verification compares procedures. -/
def pyEqB : Value → Value → Bool
  | .list xs, .list ys => pyEqListB xs ys
  | a, b =>
    match asQ a, asQ b with
    | some qa, some qb => qa == qb
    | _, _ =>
      match a, b with
      | .sym s, .sym t => s == t
      | .none, .none => true
      | .builtin m, .builtin n => m == n
      | .closure p c e, .closure p' c' e' => beqExpr p p' && beqExpr c c' && e == e'
      | _, _ => false

def pyEqListB : List Value → List Value → Bool
  | [], [] => true
  | x :: xs, y :: ys => pyEqB x y && pyEqListB xs ys
  | _, _ => false

end

/-- Host truthiness, as used by `if eval(test, env)`: false, numeric zero,
the empty string and the empty list (and `None`) are falsy; everything else
is truthy. -/
def truthy : Value → Bool
  | .bool b => b
  | .int n => !(n == 0)
  | .float q => !(q.num == 0)
  | .sym s => !(s == "")
  | .list xs => !xs.isEmpty
  | .none => false
  | .closure _ _ _ => true
  | .builtin _ => true

/-- Python `round` (banker's rounding) on an exact rational. -/
def roundHalfEven (q : ℚ) : Int :=
  let fl := q.num.fdiv q.den
  let r := q.num - fl * q.den
  if 2 * r < (q.den : Int) then fl
  else if 2 * r > (q.den : Int) then fl + 1
  else if fl % 2 = 0 then fl else fl + 1

/-- `abs` on a number value. -/
def absVal (a : Value) : Except Err Value :=
  match a with
  | .int n => .ok (.int n.natAbs)
  | .bool b => .ok (.int (if b then 1 else 0))
  | .float q => .ok (.float (if q.num < 0 then mkRat (-q.num) q.den else q))
  | _ => .error (.typeError "bad operand type for abs")

/-- Fold selecting the first extremal element. -/
def extremumRun (keepLeft : ℚ → ℚ → Bool) : Value → List Value → Except Err Value
  | cur, [] => .ok cur
  | cur, x :: xs =>
    match asQ cur, asQ x with
    | some qc, some qx =>
      extremumRun keepLeft (if keepLeft qc qx then cur else x) xs
    | _, _ => .error (.typeError "unorderable types")

/-- Python `max`/`min` over two or more numeric arguments, or one list
argument (the host also orders strings and other sequences; the model keeps
to numbers, which is all the interpreter's test surface exercises). -/
def extremum (keepLeft : ℚ → ℚ → Bool) (args : List Value) : Except Err Value :=
  match args with
  | [] => .error (.typeError "expected at least 1 argument")
  | [.list []] => .error .valueError
  | [.list (x :: xs)] => extremumRun keepLeft x xs
  | [_] => .error (.typeError "object is not iterable")
  | x :: xs => extremumRun keepLeft x xs

/-- `Env.__init__`'s `self.update(zip(parms, args))`: pair parameter names
with argument values, the shorter sequence cutting the zip short (this is
the silent arity mismatch of the reference implementation).  Later pairs
shadow earlier ones, as in a dict.  Numeric parameter names become dict
keys that symbol lookup can never see, so they bind nothing observable; a
list parameter is unhashable (`TypeError`). -/
def bindParms : List Expr → List Value → Except Err (List (String × Value))
  | p :: ps, a :: rest =>
    match bindParms ps rest with
    | .error err => .error err
    | .ok t =>
      match p with
      | .sym s => .ok (t ++ [(s, a)])
      | .int _ => .ok t
      | .float _ => .ok t
      | .list _ => .error (.typeError "unhashable type")
  | _, _ => .ok []

/-! ### Evaluator -/

mutual

/-- `eval` from `lis.py`.  Dispatch order follows the source: symbol lookup,
self-evaluating constants, then the `match x[0]` over special forms with
procedure application as the default case.  The result pairs the store
(Python mutates environments in place, also on the path to an exception)
with the value or error.  Fuel decreases on every recursive call. -/
def eval : Nat → Expr → Nat → Store → Store × Except Err Value
  | 0, _, _, σ => (σ, .error .fuelOut)
  | fuel + 1, x, e, σ =>
    match x with
    | .sym s =>
      match findFrom σ s σ.frames.length e with
      | some i =>
        match σ.frames[i]? with
        | some fr =>
          match fr.table.lookup s with
          | some v => (σ, .ok v)
          | Option.none => (σ, .error (.nameError s))
        | Option.none => (σ, .error (.nameError s))
      | Option.none => (σ, .error (.nameError s))
    | .int n => (σ, .ok (.int n))
    | .float q => (σ, .ok (.float q))
    | .list [] => (σ, .error .indexError)
    | .list (hd :: rest) =>
      match hd, rest with
      | .sym "quote", [exp] => (σ, .ok (exprToValue exp))
      | .sym "quote", _ => (σ, .error .valueError)
      | .sym "if", [testE, conseq, alt] =>
        match eval fuel testE e σ with
        | (σ₁, .error err) => (σ₁, .error err)
        | (σ₁, .ok tv) => eval fuel (if truthy tv then conseq else alt) e σ₁
      | .sym "if", _ => (σ, .error .valueError)
      | .sym "define", [v, exp] =>
        match eval fuel exp e σ with
        | (σ₁, .error err) => (σ₁, .error err)
        | (σ₁, .ok val) =>
          match v with
          | .sym name => (σ₁.setIn e name val, .ok .none)
          -- a numeric name becomes a host dict key that symbol lookup can
          -- never observe; the model drops the binding
          | .int _ => (σ₁, .ok .none)
          | .float _ => (σ₁, .ok .none)
          | .list _ => (σ₁, .error (.typeError "unhashable type"))
      | .sym "define", _ => (σ, .error .valueError)
      | .sym "set!", [v, exp] =>
        match eval fuel exp e σ with
        | (σ₁, .error err) => (σ₁, .error err)
        | (σ₁, .ok val) =>
          match v with
          | .sym name =>
            match findFrom σ₁ name σ₁.frames.length e with
            | some i => (σ₁.setIn i name val, .ok .none)
            | Option.none => (σ₁, .error (.nameError name))
          | .int _ => (σ₁, .error (.nameError (lispstr v)))
          | .float _ => (σ₁, .error (.nameError (lispstr v)))
          | .list _ => (σ₁, .error (.typeError "unhashable type"))
      | .sym "set!", _ => (σ, .error .valueError)
      | .sym "lambda", [parms, body] => (σ, .ok (.closure parms body e))
      | .sym "lambda", _ => (σ, .error .valueError)
      | _, _ =>
        match eval fuel hd e σ with
        | (σ₁, .error err) => (σ₁, .error err)
        | (σ₁, .ok procv) =>
          match evalArgs fuel rest e σ₁ with
          | (σ₂, .error err) => (σ₂, .error err)
          | (σ₂, .ok args) => applyVal fuel procv args σ₂

/-- The argument list comprehension `[eval(exp, env) for exp in x[1:]]`,
left to right, stopping at the first error. -/
def evalArgs : Nat → List Expr → Nat → Store → Store × Except Err (List Value)
  | 0, _, _, σ => (σ, .error .fuelOut)
  | _ + 1, [], _, σ => (σ, .ok [])
  | fuel + 1, x :: xs, e, σ =>
    match eval fuel x e σ with
    | (σ₁, .error err) => (σ₁, .error err)
    | (σ₁, .ok v) =>
      match evalArgs fuel xs e σ₁ with
      | (σ₂, .error err) => (σ₂, .error err)
      | (σ₂, .ok vs) => (σ₂, .ok (v :: vs))

/-- `proc(*args)`: `Procedure.__call__` builds a fresh `Env` with the zipped
bindings, its `outer` being the captured environment, and evaluates the body
there; built-ins dispatch to `applyBuiltin`; any other value raises
`TypeError` (not callable).  A non-list parameter spec (on which the host
zip would iterate a string or fail) is outside the model. -/
def applyVal : Nat → Value → List Value → Store → Store × Except Err Value
  | 0, _, _, σ => (σ, .error .fuelOut)
  | fuel + 1, .closure parms body envId, args, σ =>
    match parms with
    | .list ps =>
      match bindParms ps args with
      | .error err => (σ, .error err)
      | .ok table => eval fuel body σ.frames.length (σ.push ⟨table, some envId⟩)
    | _ => (σ, .error (.notModelled "non-list parameter spec"))
  | fuel + 1, .builtin name, args, σ => applyBuiltin fuel name args σ
  | _ + 1, _, _, σ => (σ, .error (.typeError "object is not callable"))

/-- The `standard_env` procedures.  `eq?` (host object identity) and `map`
(host lazy iterator) have no value-level counterpart and are outside the
model; everything else follows the registration table of `standard_env`. -/
def applyBuiltin : Nat → String → List Value → Store → Store × Except Err Value
  | 0, _, _, σ => (σ, .error .fuelOut)
  | fuel + 1, name, args, σ =>
    match name, args with
    | "+", _ => (σ, addVals args)
    | "-", [a, b] => (σ, subVal a b)
    | "-", _ => (σ, .error (.typeError "argument count mismatch"))
    | "*", _ => (σ, mulVals args)
    | "/", [a, b] => (σ, divVal a b)
    | "/", _ => (σ, .error (.typeError "argument count mismatch"))
    | ">", [a, b] => (σ, (ltVal b a).map Value.bool)
    | ">", _ => (σ, .error (.typeError "argument count mismatch"))
    | "<", [a, b] => (σ, (ltVal a b).map Value.bool)
    | "<", _ => (σ, .error (.typeError "argument count mismatch"))
    | ">=", [a, b] => (σ, (ltVal a b).map (fun l => Value.bool (!l)))
    | ">=", _ => (σ, .error (.typeError "argument count mismatch"))
    | "<=", [a, b] => (σ, (ltVal b a).map (fun l => Value.bool (!l)))
    | "<=", _ => (σ, .error (.typeError "argument count mismatch"))
    | "=", [a, b] => (σ, .ok (.bool (pyEqB a b)))
    | "=", _ => (σ, .error (.typeError "argument count mismatch"))
    | "abs", [a] => (σ, absVal a)
    | "abs", _ => (σ, .error (.typeError "argument count mismatch"))
    | "append", [.list xs, .list ys] => (σ, .ok (.list (xs ++ ys)))
    | "append", [.sym s, .sym t] => (σ, .ok (.sym (s ++ t)))
    | "append", [a, b] =>
      (σ, match asInt a, asInt b with
          | some m, some n => .ok (.int (m + n))
          | _, _ =>
            match asQ a, asQ b with
            | some qa, some qb => .ok (.float (qadd qa qb))
            | _, _ => .error (.typeError "unsupported operand type"))
    | "append", _ => (σ, .error (.typeError "argument count mismatch"))
    | "apply", [p, .list xs] => applyVal fuel p xs σ
    | "apply", [_, _] => (σ, .error (.typeError "argument list is not iterable"))
    | "apply", _ => (σ, .error (.typeError "argument count mismatch"))
    | "begin", [] => (σ, .error .indexError)
    | "begin", x :: xs => (σ, .ok ((x :: xs).getLast (by simp)))
    | "car", [.list (x :: _)] => (σ, .ok x)
    | "car", [.list []] => (σ, .error .indexError)
    | "car", [.sym s] =>
      (σ, if s.isEmpty then .error .indexError else .ok (.sym (s.take 1)))
    | "car", _ => (σ, .error (.typeError "object is not subscriptable"))
    | "cdr", [.list (_ :: xs)] => (σ, .ok (.list xs))
    | "cdr", [.list []] => (σ, .ok (.list []))
    | "cdr", [.sym s] => (σ, .ok (.sym (s.drop 1)))
    | "cdr", _ => (σ, .error (.typeError "object is not subscriptable"))
    | "cons", [x, .list ys] => (σ, .ok (.list (x :: ys)))
    | "cons", [_, _] => (σ, .error (.typeError "can only concatenate list"))
    | "cons", _ => (σ, .error (.typeError "argument count mismatch"))
    | "eq?", _ => (σ, .error (.notModelled "host object identity"))
    | "equal?", [a, b] => (σ, .ok (.bool (pyEqB a b)))
    | "equal?", _ => (σ, .error (.typeError "argument count mismatch"))
    | "length", [.list xs] => (σ, .ok (.int xs.length))
    | "length", [.sym s] => (σ, .ok (.int s.length))
    | "length", _ => (σ, .error (.typeError "object has no len"))
    | "list", _ => (σ, .ok (.list args))
    | "list?", [.list _] => (σ, .ok (.bool true))
    | "list?", [_] => (σ, .ok (.bool false))
    | "list?", _ => (σ, .error (.typeError "argument count mismatch"))
    | "map", _ => (σ, .error (.notModelled "host lazy map object"))
    | "max", _ => (σ, extremum (fun qc qx => !Rat.blt qc qx) args)
    | "min", _ => (σ, extremum (fun qc qx => !Rat.blt qx qc) args)
    | "not", [a] => (σ, .ok (.bool (!truthy a)))
    | "not", _ => (σ, .error (.typeError "argument count mismatch"))
    | "null?", [a] => (σ, .ok (.bool (pyEqB a (.list []))))
    | "null?", _ => (σ, .error (.typeError "argument count mismatch"))
    | "number?", [.int _] => (σ, .ok (.bool true))
    | "number?", [.float _] => (σ, .ok (.bool true))
    | "number?", [.bool _] => (σ, .ok (.bool true))
    | "number?", [_] => (σ, .ok (.bool false))
    | "number?", _ => (σ, .error (.typeError "argument count mismatch"))
    | "procedure?", [.closure _ _ _] => (σ, .ok (.bool true))
    | "procedure?", [.builtin _] => (σ, .ok (.bool true))
    | "procedure?", [_] => (σ, .ok (.bool false))
    | "procedure?", _ => (σ, .error (.typeError "argument count mismatch"))
    | "round", [.int n] => (σ, .ok (.int n))
    | "round", [.bool b] => (σ, .ok (.int (if b then 1 else 0)))
    | "round", [.float q] => (σ, .ok (.int (roundHalfEven q)))
    | "round", _ => (σ, .error (.typeError "bad operand for round"))
    | "symbol?", [.sym _] => (σ, .ok (.bool true))
    | "symbol?", [_] => (σ, .ok (.bool false))
    | "symbol?", _ => (σ, .error (.typeError "argument count mismatch"))
    | _, _ => (σ, .error (.notModelled "builtin outside the table"))

end

/-! ### The standard environment and runners -/

/-- The registration table of `standard_env` (the `env.update({...})` dict).
The preceding `env.update(vars(math))` bindings are omitted from the model:
none of the verified claims reads a math-module name, and the explicit table
shadows any colliding math name anyway. -/
def stdTable : List (String × Value) :=
  [("+", .builtin "+"), ("-", .builtin "-"), ("*", .builtin "*"),
   ("/", .builtin "/"), (">", .builtin ">"), ("<", .builtin "<"),
   (">=", .builtin ">="), ("<=", .builtin "<="), ("=", .builtin "="),
   ("abs", .builtin "abs"), ("append", .builtin "append"),
   ("apply", .builtin "apply"), ("begin", .builtin "begin"),
   ("car", .builtin "car"), ("cdr", .builtin "cdr"),
   ("cons", .builtin "cons"), ("eq?", .builtin "eq?"),
   ("equal?", .builtin "equal?"), ("length", .builtin "length"),
   ("list", .builtin "list"), ("list?", .builtin "list?"),
   ("map", .builtin "map"), ("max", .builtin "max"),
   ("min", .builtin "min"), ("not", .builtin "not"),
   ("null?", .builtin "null?"), ("number?", .builtin "number?"),
   ("procedure?", .builtin "procedure?"), ("round", .builtin "round"),
   ("symbol?", .builtin "symbol?")]

/-- `standard_env()`: a fresh store holding one root frame. -/
def stdStore : Store := ⟨[⟨stdTable, Option.none⟩]⟩

/-- Parse and evaluate one string in a fresh standard environment. -/
def runStr (fuel : Nat) (s : String) : Except Err Value :=
  match parse s with
  | .error err => .error err
  | .ok x => (eval fuel x 0 stdStore).2

/-- Parse and evaluate a sequence of strings in one environment, returning
the store and the last result (as the pytest helpers do). -/
def runSeq (fuel : Nat) : List String → Store → Store × Except Err Value
  | [], σ => (σ, .ok .none)
  | s :: rest, σ =>
    match parse s with
    | .error err => (σ, .error err)
    | .ok x =>
      match eval fuel x 0 σ, rest with
      | (σ₁, .error err), _ => (σ₁, .error err)
      | (σ₁, .ok v), [] => (σ₁, .ok v)
      | (σ₁, .ok _), _ :: _ => runSeq fuel rest σ₁

/-- The last value of a program run in a fresh standard environment. -/
def runList (fuel : Nat) (prog : List String) : Except Err Value :=
  (runSeq fuel prog stdStore).2

/-! ### Specification devices for the parse/render round trip -/

/-- A well-formed atom token: nonempty, and free of whitespace and
parentheses (every tokenizer output other than `(` and `)` has this shape). -/
def tokOkChars (t : List Char) : Prop :=
  t ≠ [] ∧ ∀ c ∈ t, isWs c = false ∧ c ≠ '(' ∧ c ≠ ')'

/-- A token as delivered to the reader. -/
def parseTok (t : String) : Prop :=
  t = "(" ∨ t = ")" ∨ tokOkChars t.data

/-- Invariant of every expression produced by `parse`: symbols are genuine
tokens that re-classify to themselves, and floats carry a decimal-
representable rational (denominator dividing a power of ten), which is what
`pyFloatParse` can produce.  Rendering such an expression re-reads to the
same expression. -/
inductive Good : Expr → Prop where
  | int (n : Int) : Good (.int n)
  | float (q : ℚ) (h : ∃ m : ℕ, q.den ∣ 10 ^ m) : Good (.float q)
  | sym (s : String) (h1 : tokOkChars s.data) (h2 : atom s = .sym s) : Good (.sym s)
  | list (xs : List Expr) (h : ∀ e ∈ xs, Good e) : Good (.list xs)

mutual

/-- The token sequence the renderer's output tokenizes back to. -/
def renderToks : Expr → List (List Char)
  | .list xs => ['('] :: renderToksL xs ++ [[')']]
  | .int n => [intStr n]
  | .float q => [floatStr q]
  | .sym s => [s.data]

def renderToksL : List Expr → List (List Char)
  | [] => []
  | x :: xs => renderToks x ++ renderToksL xs

end

/-! ## Theorems -/

/-- C1 (counterexample): the interpreter uses host truthiness, so numeric
zero and the empty list are falsy: `(if 0 1 2)` and `(if (quote ()) 1 2)`
both evaluate to `2`, refuting the claim that they evaluate to `1`. -/
theorem if_scheme_truthiness_counterexample :
    runStr 50 "(if 0 1 2)" = .ok (.int 2) ∧
    ¬ runStr 50 "(if 0 1 2)" = .ok (.int 1) ∧
    runStr 50 "(if (quote ()) 1 2)" = .ok (.int 2) ∧
    ¬ runStr 50 "(if (quote ()) 1 2)" = .ok (.int 1) := by
  refine ⟨rfl, ?_, rfl, ?_⟩
  · intro h
    have h2 : runStr 50 "(if 0 1 2)" = .ok (.int 2) := rfl
    rw [h2] at h
    injection h with h'
    injection h' with h''
    omega
  · intro h
    have h2 : runStr 50 "(if (quote ()) 1 2)" = .ok (.int 2) := rfl
    rw [h2] at h
    injection h with h'
    injection h' with h''
    omega

/-- C1 (amended): `if` uses the host language's truthiness.  An integer
test selects the alternate exactly when it is zero (stated for every fuel,
environment and store), `(if 0 1 2)` and `(if (quote ()) 1 2)` evaluate to
`2`, while non-empty quoted data and `True` select the consequent and
`False` the alternate. -/
theorem if_host_truthiness :
    (∀ f n c a e σ, eval (f + 2) (.list [.sym "if", .int n, c, a]) e σ =
        eval (f + 1) (if n = 0 then a else c) e σ) ∧
    runStr 50 "(if 0 1 2)" = .ok (.int 2) ∧
    runStr 50 "(if (quote ()) 1 2)" = .ok (.int 2) ∧
    runStr 50 "(if (quote x) 1 2)" = .ok (.int 1) ∧
    runStr 50 "(if (quote (0)) 1 2)" = .ok (.int 1) ∧
    runStr 50 "(if (< 1 2) 1 2)" = .ok (.int 1) ∧
    runStr 50 "(if (< 2 1) 1 2)" = .ok (.int 2) := by
  refine ⟨?_, rfl, rfl, rfl, rfl, rfl, rfl⟩
  intro f n c a e σ
  have unf : eval (f + 2) (.list [.sym "if", .int n, c, a]) e σ =
      (match eval (f + 1) (.int n) e σ with
       | (σ₁, .error e') => (σ₁, .error e')
       | (σ₁, .ok tv) => eval (f + 1) (if truthy tv then c else a) e σ₁) := rfl
  have h1 : eval (f + 1) (.int n) e σ = (σ, .ok (.int n)) := rfl
  rw [unf, h1]
  by_cases h : n = 0 <;> simp [truthy, h]

/-- C2: invoking a one-parameter `Procedure` with two arguments raises no
error at all: `zip` silently drops the extra argument, the body runs with
only the first binding, and `((lambda (x) x) 1 2)` returns `1`.  The general
conjunct shows the call environment receives exactly one binding. -/
theorem one_param_two_args_no_arity_error :
    runStr 50 "((lambda (x) x) 1 2)" = .ok (.int 1) ∧
    (∀ f s body envId a b σ,
      applyVal (f + 1) (.closure (.list [.sym s]) body envId) [a, b] σ =
        eval f body σ.frames.length (σ.push ⟨[(s, a)], some envId⟩)) :=
  ⟨rfl, fun _ _ _ _ _ _ _ => rfl⟩

/-- C5: lambda parameters live in a fresh call frame: with `x` defined as
`10` and `f` as `(lambda (x) (* x 2))`, the call `(f 5)` yields `10` and the
outer `x` still reads `10` afterwards. -/
theorem lambda_param_no_leak :
    runList 50 ["(define x 10)", "(define f (lambda (x) (* x 2)))", "(f 5)"] =
      .ok (.int 10) ∧
    runList 50 ["(define x 10)", "(define f (lambda (x) (* x 2)))", "(f 5)", "x"] =
      .ok (.int 10) :=
  ⟨rfl, rfl⟩

/-- C7: `parse` fails with the `SyntaxError` kind on an unterminated list,
on an unmatched closing parenthesis and on empty input. -/
theorem parse_syntax_errors :
    parse "(+ 1 2" =
      .error (.syntaxError "unexpected EOF while reading - missing closing parenthesis") ∧
    parse ")" = .error (.syntaxError "unexpected )") ∧
    parse "" = .error (.syntaxError "unexpected EOF while reading") :=
  ⟨rfl, rfl, rfl⟩

/-- C9: in the standard environment `(+ 2 3 4)` is the integer `9`,
`(* 5 6)` the integer `30`, and `(/ 15 3)` the float `5.0` (a `float`
value, not an `int`). -/
theorem std_arithmetic :
    runStr 50 "(+ 2 3 4)" = .ok (.int 9) ∧
    runStr 50 "(* 5 6)" = .ok (.int 30) ∧
    runStr 50 "(/ 15 3)" = .ok (.float 5) :=
  ⟨rfl, rfl, rfl⟩

/-- C10: special-form dispatch is syntactic and beats variable bindings.
`quote` and `lambda` forms evaluate by their special rules in EVERY store
(in particular stores whose environments bind those names), and each of the
five keywords still acts as a special form after being `define`d to an
ordinary value. -/
theorem special_form_precedence :
    (∀ f x e σ, eval (f + 1) (.list [.sym "quote", x]) e σ = (σ, .ok (exprToValue x))) ∧
    (∀ f p b e σ, eval (f + 1) (.list [.sym "lambda", p, b]) e σ = (σ, .ok (.closure p b e))) ∧
    runList 50 ["(define quote 1)", "(quote (1 2))"] = .ok (.list [.int 1, .int 2]) ∧
    runList 50 ["(define if 1)", "(if 0 1 2)"] = .ok (.int 2) ∧
    runList 50 ["(define define 3)", "(define y 7)", "y"] = .ok (.int 7) ∧
    runList 50 ["(define lambda 3)", "((lambda (z) z) 4)"] = .ok (.int 4) ∧
    runList 50 ["(define set! 3)", "(define w 1)", "(set! w 5)", "w"] = .ok (.int 5) :=
  ⟨fun _ _ _ _ => rfl, fun _ _ _ _ _ => rfl, rfl, rfl, rfl, rfl, rfl⟩

/-- C3: a failed right-hand side leaves `define` and `set!` without effect:
if evaluating `x` errors with final store `σ'`, then evaluating
`(define name x)` or `(set! name x)` from the same state yields exactly the
same error and the same store — no binding of `name` is created or
overwritten by the failed form. -/
theorem define_set_atomic_on_error :
    ∀ f name x e σ σ' err, eval f x e σ = (σ', .error err) →
      eval (f + 1) (.list [.sym "define", .sym name, x]) e σ = (σ', .error err) ∧
      eval (f + 1) (.list [.sym "set!", .sym name, x]) e σ = (σ', .error err) := by
  intro f name x e σ σ' err h
  have unfd : eval (f + 1) (.list [.sym "define", .sym name, x]) e σ =
      (match eval f x e σ with
       | (σ₁, .error e') => (σ₁, .error e')
       | (σ₁, .ok val) => (σ₁.setIn e name val, .ok .none)) := rfl
  have unfs : eval (f + 1) (.list [.sym "set!", .sym name, x]) e σ =
      (match eval f x e σ with
       | (σ₁, .error e') => (σ₁, .error e')
       | (σ₁, .ok val) =>
         match findFrom σ₁ name σ₁.frames.length e with
         | some i => (σ₁.setIn i name val, .ok .none)
         | Option.none => (σ₁, .error (.nameError name))) := rfl
  rw [unfd, unfs, h]
  exact ⟨rfl, rfl⟩

/-- C3 witness. -/
theorem define_set_atomic_on_error_witness :
    eval 1 (.sym "nope") 0 stdStore = (stdStore, .error (.nameError "nope")) ∧
    eval 2 (.list [.sym "define", .sym "z", .sym "nope"]) 0 stdStore =
      (stdStore, .error (.nameError "nope")) ∧
    eval 2 (.list [.sym "set!", .sym "z", .sym "nope"]) 0 stdStore =
      (stdStore, .error (.nameError "nope")) :=
  ⟨rfl,
   (define_set_atomic_on_error 1 "z" (.sym "nope") 0 stdStore stdStore
      (.nameError "nope") rfl).1,
   (define_set_atomic_on_error 1 "z" (.sym "nope") 0 stdStore stdStore
      (.nameError "nope") rfl).2⟩

/-- C4: `Env.find` walks the outer-chain and selects the nearest frame that
binds the name (it equals the first binder of the chain); a successful
`set!` overwrites exactly in that frame, or fails with `NameError` when no
frame binds the name; concretely, `set!` on an unbound name is a
`NameError`, and a `set!` run inside a procedure on an outer `x` mutates the
outer binding as seen by a later lookup from the outer scope. -/
theorem set_bang_semantics :
    (∀ σ s f e, findFrom σ s f e = (envChain σ f e).find? (fun i => bindsVar σ s i)) ∧
    (∀ f name x v e σ σ₁,
      eval f x e σ = (σ₁, .ok v) →
      eval (f + 1) (.list [.sym "set!", .sym name, x]) e σ =
        (match findFrom σ₁ name σ₁.frames.length e with
         | some i => (σ₁.setIn i name v, .ok .none)
         | Option.none => (σ₁, .error (.nameError name)))) ∧
    runStr 50 "(set! nosuch 1)" = .error (.nameError "nosuch") ∧
    runList 50 ["(define x 10)", "(define f (lambda (y) (set! x y)))", "(f 99)", "x"] =
      .ok (.int 99) := by
  refine ⟨?_, ?_, rfl, rfl⟩
  · intro σ s f
    induction f with
    | zero => intro e; rfl
    | succ f ih =>
      intro e
      simp only [findFrom, envChain, bindsVar]
      cases h : σ.frames[e]? with
      | none => rfl
      | some fr =>
        by_cases hb : (fr.table.lookup s).isSome
        · simp [hb, List.find?, bindsVar, h]
        · cases ho : fr.outer with
          | none => simp [hb, List.find?, bindsVar, h, ho]
          | some o => simp [hb, List.find?, bindsVar, h, ho, ih]
  · intro f name x v e σ σ₁ h
    have unf : eval (f + 1) (.list [.sym "set!", .sym name, x]) e σ =
        (match eval f x e σ with
         | (σ', .error e') => (σ', .error e')
         | (σ', .ok val) =>
           match findFrom σ' name σ'.frames.length e with
           | some i => (σ'.setIn i name val, .ok .none)
           | Option.none => (σ', .error (.nameError name))) := rfl
    rw [unf, h]

/-- C4 witness. -/
theorem set_bang_semantics_witness :
    findFrom stdStore "+" 1 0 =
      (envChain stdStore 1 0).find? (fun i => bindsVar stdStore "+" i) ∧
    eval 1 (.int 7) 0 stdStore = (stdStore, .ok (.int 7)) ∧
    eval 2 (.list [.sym "set!", .sym "+", .int 7]) 0 stdStore =
      (stdStore.setIn 0 "+" (.int 7), .ok .none) :=
  ⟨set_bang_semantics.1 stdStore "+" 1 0,
   rfl,
   set_bang_semantics.2.1 1 "+" (.int 7) (.int 7) 0 stdStore stdStore rfl⟩

/-- C8: the atom classifier tries the integer parse first, then the float
parse, then falls back to a verbatim symbol; in particular `"5"` — which the
float parser would also accept — classifies as the integer `5`, keeping the
two numeric kinds apart. -/
theorem atom_int_first :
    atom "5" = .int 5 ∧
    pyFloatParse "5".data = some (mkRat 5 1) ∧
    (∀ t n, pyIntParse t.data = some n → atom t = .int n) ∧
    (∀ t q, pyIntParse t.data = Option.none → pyFloatParse t.data = some q →
      atom t = .float q) ∧
    (∀ t, pyIntParse t.data = Option.none → pyFloatParse t.data = Option.none →
      atom t = .sym t) := by
  refine ⟨rfl, rfl, ?_, ?_, ?_⟩
  · intro t n h; simp [atom, h]
  · intro t q h1 h2; simp [atom, h1, h2]
  · intro t h1 h2; simp [atom, h1, h2]

/-- C8 witness. -/
theorem atom_int_first_witness :
    (pyIntParse "7".data = some 7 ∧ atom "7" = .int 7) ∧
    (pyIntParse "2.5".data = Option.none ∧ pyFloatParse "2.5".data = some (mkRat 5 2) ∧
      atom "2.5" = .float (mkRat 5 2)) ∧
    (pyIntParse "foo".data = Option.none ∧ pyFloatParse "foo".data = Option.none ∧
      atom "foo" = .sym "foo") :=
  ⟨⟨rfl, atom_int_first.2.2.1 "7" 7 rfl⟩,
   ⟨rfl, rfl, atom_int_first.2.2.2.1 "2.5" (mkRat 5 2) rfl rfl⟩,
   ⟨rfl, rfl, atom_int_first.2.2.2.2 "foo" rfl rfl⟩⟩

/-! ### Digit strings: supporting lemmas for the round trip (C6) -/

theorem digitChar_isDigit {d : Nat} (h : d < 10) : (digitChar d).isDigit = true := by
  interval_cases d <;> decide

theorem digitVal_digitChar {d : Nat} (h : d < 10) : digitVal (digitChar d) = d := by
  interval_cases d <;> decide

theorem isWs_of_isDigit {c : Char} (h : c.isDigit = true) : isWs c = false := by
  cases hw : isWs c
  · rfl
  · exfalso
    simp only [isWs, Char.isWhitespace] at hw
    simp only [Bool.or_eq_true, decide_eq_true_eq] at hw
    rcases hw with ((h1 | h1) | h1) | h1 <;> subst h1 <;> exact absurd h (by decide)

theorem isDigit_ne {c : Char} (h : c.isDigit = true) :
    c ≠ '(' ∧ c ≠ ')' ∧ c ≠ '+' ∧ c ≠ '-' ∧ c ≠ '.' := by
  refine ⟨?_, ?_, ?_, ?_, ?_⟩ <;> rintro rfl <;> exact absurd h (by decide)

theorem digitsVal_append (l : List Char) (c : Char) :
    digitsVal (l ++ [c]) = 10 * digitsVal l + digitVal c := by
  simp [digitsVal, List.foldl_append]

theorem digitsVal_replicate_zero (k : Nat) (l : List Char) :
    digitsVal (List.replicate k '0' ++ l) = digitsVal l := by
  induction k with
  | zero => rfl
  | succ k ih =>
    have : digitsVal ('0' :: (List.replicate k '0' ++ l)) =
        digitsVal (List.replicate k '0' ++ l) := rfl
    simpa [List.replicate_succ] using this.trans ih

theorem natDigitsAux_spec : ∀ f n, n < f →
    natDigitsAux f n ≠ [] ∧ (∀ c ∈ natDigitsAux f n, c.isDigit = true) ∧
      digitsVal (natDigitsAux f n) = n := by
  intro f
  induction f with
  | zero => intro n h; exact absurd h (Nat.not_lt_zero n)
  | succ f ih =>
    intro n hn
    by_cases h10 : n < 10
    · refine ⟨by simp [natDigitsAux, h10], ?_, ?_⟩
      · intro c hc
        simp [natDigitsAux, h10] at hc
        exact hc ▸ digitChar_isDigit h10
      · simp [natDigitsAux, h10, digitsVal, digitVal_digitChar h10]
    · have hdiv : n / 10 < n := Nat.div_lt_self (by omega) (by omega)
      obtain ⟨ih1, ih2, ih3⟩ := ih (n / 10) (by omega)
      refine ⟨by simp [natDigitsAux, h10], ?_, ?_⟩
      · intro c hc
        simp only [natDigitsAux, if_neg h10, List.mem_append, List.mem_singleton] at hc
        rcases hc with hc | hc
        · exact ih2 c hc
        · exact hc ▸ digitChar_isDigit (Nat.mod_lt n (by omega))
      · simp only [natDigitsAux, if_neg h10]
        rw [digitsVal_append, ih3, digitVal_digitChar (Nat.mod_lt n (by omega))]
        omega

theorem natDigits_spec (n : Nat) :
    natDigits n ≠ [] ∧ (∀ c ∈ natDigits n, c.isDigit = true) ∧
      digitsVal (natDigits n) = n :=
  natDigitsAux_spec (n + 1) n (by omega)

theorem natDigitsAux_length : ∀ f n k, n < f → n < 10 ^ (k + 1) →
    (natDigitsAux f n).length ≤ k + 1 := by
  intro f
  induction f with
  | zero => intro n k h; exact absurd h (Nat.not_lt_zero n)
  | succ f ih =>
    intro n k hn hk
    have he : natDigitsAux (f + 1) n =
        if n < 10 then [digitChar n]
        else natDigitsAux f (n / 10) ++ [digitChar (n % 10)] := rfl
    by_cases h10 : n < 10
    · rw [he, if_pos h10]
      simp
    · have hk1 : 1 ≤ k := by
        by_contra hc
        have hk0 : k = 0 := by omega
        subst hk0
        norm_num at hk
        omega
      obtain ⟨k', rfl⟩ : ∃ k', k = k' + 1 := ⟨k - 1, by omega⟩
      have hdiv : n / 10 < n := Nat.div_lt_self (by omega) (by omega)
      have hdivpow : n / 10 < 10 ^ (k' + 1) := by
        rw [Nat.div_lt_iff_lt_mul (by omega)]
        calc n < 10 ^ (k' + 2) := hk
        _ = 10 ^ (k' + 1) * 10 := by ring
      have := ih (n / 10) k' (by omega) hdivpow
      rw [he, if_neg h10]
      simp only [List.length_append, List.length_singleton]
      omega

theorem natDigits_length {n k : Nat} (h : n < 10 ^ (k + 1)) :
    (natDigits n).length ≤ k + 1 :=
  natDigitsAux_length (n + 1) n k (by omega) h

theorem natCore_natDigits (n : Nat) : natCore (natDigits n) = some n := by
  obtain ⟨h1, h2, h3⟩ := natDigits_spec n
  simp only [natCore, List.isEmpty_iff, h1, if_false, if_neg h1]
  rw [if_pos (List.all_eq_true.2 h2), h3]

theorem pyIntParse_intStr (n : Int) : pyIntParse (intStr n) = some n := by
  by_cases hn : n < 0
  · rw [intStr, if_pos hn]
    show pyIntParse ('-' :: natDigits (-n).toNat) = some n
    rw [pyIntParse]
    rw [if_neg (by decide), if_pos rfl, natCore_natDigits]
    show some (-(((-n).toNat : Nat) : Int)) = some n
    congr 1
    omega
  · rw [intStr, if_neg hn]
    obtain ⟨h1, h2, _⟩ := natDigits_spec n.toNat
    cases hl : natDigits n.toNat with
    | nil => exact absurd hl h1
    | cons c cs =>
      have hc : c.isDigit = true := h2 c (hl ▸ List.mem_cons_self c cs)
      obtain ⟨_, _, hp, hm, _⟩ := isDigit_ne hc
      rw [pyIntParse]
      rw [if_neg hp, if_neg hm, ← hl, natCore_natDigits]
      show some ((n.toNat : Nat) : Int) = some n
      congr 1
      omega

theorem atom_intStr (n : Int) : atom ⟨intStr n⟩ = .int n := by
  have hd : (⟨intStr n⟩ : String).data = intStr n := rfl
  rw [atom, hd, pyIntParse_intStr]

/-! ### Float parsing and rendering round trip (C6) -/

theorem mkRat_den_dvd (a : ℤ) (b : ℕ) : (mkRat a b).den ∣ b := by
  have h := Rat.den_dvd a b
  rw [← Rat.mkRat_eq_divInt] at h
  exact_mod_cast h

theorem pyFloatSplit_decimal {ip rest : List Char} {q : ℚ}
    (h : pyFloatSplit ip rest = some q) : ∃ m, q.den ∣ 10 ^ m := by
  cases rest with
  | nil =>
    rw [pyFloatSplit] at h
    split at h
    · exact absurd h (by simp)
    · injection h with h'
      exact ⟨0, by rw [← h']; simp⟩
  | cons c fs =>
    rw [pyFloatSplit] at h
    split at h
    · split at h
      · injection h with h'
        exact ⟨fs.length, by rw [← h']; exact mkRat_den_dvd _ _⟩
      · exact absurd h (by simp)
    · exact absurd h (by simp)

theorem pyFloatCore_decimal {cs : List Char} {q : ℚ}
    (h : pyFloatCore cs = some q) : ∃ m, q.den ∣ 10 ^ m :=
  pyFloatSplit_decimal h

theorem pyFloatParse_decimal {cs : List Char} {q : ℚ}
    (h : pyFloatParse cs = some q) : ∃ m, q.den ∣ 10 ^ m := by
  match cs with
  | [] => exact absurd h (by rw [pyFloatParse]; simp)
  | c :: cs' =>
    rw [pyFloatParse] at h
    by_cases hp : c = '+'
    · rw [if_pos hp] at h
      exact pyFloatCore_decimal h
    · rw [if_neg hp] at h
      by_cases hm : c = '-'
      · rw [if_pos hm] at h
        cases hc : pyFloatCore cs' with
        | none => rw [hc] at h; exact absurd h (by simp)
        | some q' =>
          rw [hc] at h
          injection h with h'
          obtain ⟨m, hd⟩ := pyFloatCore_decimal hc
          exact ⟨m, by rw [← h']; simpa using hd⟩
      · rw [if_neg hm] at h
        exact pyFloatCore_decimal h

theorem list_prod_two_five : ∀ l : List ℕ, (∀ x ∈ l, x = 2 ∨ x = 5) →
    l.prod = 2 ^ l.count 2 * 5 ^ l.count 5 := by
  intro l
  induction l with
  | nil => intro _; rfl
  | cons x xs ih =>
    intro h
    have hx := h x (List.mem_cons_self x xs)
    have hxs := ih (fun y hy => h y (List.mem_cons_of_mem x hy))
    rcases hx with rfl | rfl
    · rw [List.prod_cons, hxs, List.count_cons_self, List.count_cons_of_ne (by decide)]
      ring
    · rw [List.prod_cons, hxs, List.count_cons_self, List.count_cons_of_ne (by decide)]
      ring

theorem den_dvd_pow_fracDigitsLen {q : ℚ} (h : ∃ m, q.den ∣ 10 ^ m) :
    q.den ∣ 10 ^ fracDigitsLen q := by
  obtain ⟨m, hm⟩ := h
  have hden0 : q.den ≠ 0 := q.den_nz
  have hmem : ∀ p ∈ q.den.primeFactorsList, p = 2 ∨ p = 5 := by
    intro p hp
    have hprime := Nat.prime_of_mem_primeFactorsList hp
    have hdvd : p ∣ 10 ^ m := dvd_trans (Nat.dvd_of_mem_primeFactorsList hp) hm
    have h10 : p ∣ 10 := Nat.Prime.dvd_of_dvd_pow hprime hdvd
    have hle : p ≤ 10 := Nat.le_of_dvd (by omega) h10
    have h2 := hprime.two_le
    interval_cases p <;> revert h10 hprime <;> decide
  have hprod := Nat.prod_primeFactorsList hden0
  set a := q.den.primeFactorsList.count 2 with ha
  set b := q.den.primeFactorsList.count 5 with hb
  have hden : q.den = 2 ^ a * 5 ^ b := by
    rw [← hprod, list_prod_two_five _ hmem]
  have hk : a ≤ fracDigitsLen q ∧ b ≤ fracDigitsLen q := by
    constructor <;> · rw [fracDigitsLen]; omega
  calc q.den = 2 ^ a * 5 ^ b := hden
  _ ∣ 2 ^ fracDigitsLen q * 5 ^ fracDigitsLen q :=
      mul_dvd_mul (pow_dvd_pow 2 hk.1) (pow_dvd_pow 5 hk.2)
  _ = 10 ^ fracDigitsLen q := by rw [← Nat.mul_pow]

theorem takeWhile_all_append {p : Char → Bool} {l1 : List Char}
    (h : ∀ c ∈ l1, p c = true) {c0 : Char} (hc : p c0 = false) (l2 : List Char) :
    (l1 ++ c0 :: l2).takeWhile p = l1 := by
  induction l1 with
  | nil => simp [List.takeWhile_cons, hc]
  | cons a l ih =>
    have ha := h a (List.mem_cons_self a l)
    simp [List.takeWhile_cons, ha,
      ih (fun c hmem => h c (List.mem_cons_of_mem a hmem))]

theorem natCore_none_of_dot {cs : List Char} (h : '.' ∈ cs) :
    natCore cs = Option.none := by
  have hne : cs.isEmpty = false := by
    cases cs with
    | nil => cases h
    | cons a l => rfl
  have hall : cs.all Char.isDigit = false := by
    cases hall : cs.all Char.isDigit with
    | false => rfl
    | true =>
      have := List.all_eq_true.1 hall '.' h
      exact absurd this (by decide)
  rw [natCore, hne, hall]
  rfl

theorem scaled_eq {q : ℚ} (hq : 0 ≤ q) {k : Nat} (hden : q.den ∣ 10 ^ k) :
    ((q.num.toNat * 10 ^ k / q.den : ℕ) : ℚ) = q * 10 ^ k := by
  obtain ⟨d', hd'⟩ := hden
  have hden0 : 0 < q.den := Nat.pos_of_ne_zero q.den_nz
  have hN : q.num.toNat * 10 ^ k / q.den = q.num.toNat * d' := by
    rw [hd', show q.num.toNat * (q.den * d') = q.num.toNat * d' * q.den from by ring]
    exact Nat.mul_div_cancel _ hden0
  rw [hN]
  have hnum : ((q.num.toNat : ℕ) : ℚ) = (q.num : ℚ) := by
    rw [← Int.cast_natCast]
    congr 1
    exact Int.toNat_of_nonneg (Rat.num_nonneg.2 hq)
  have h10 : ((10 : ℚ)) ^ k = (q.den : ℚ) * (d' : ℚ) := by
    have := congrArg (fun n : ℕ => (n : ℚ)) hd'
    push_cast at this
    exact this
  have hqden : q * (q.den : ℚ) = (q.num : ℚ) := by
    have hdenq : ((q.den : ℚ)) ≠ 0 := by
      exact_mod_cast q.den_nz
    have hnd := Rat.num_div_den q
    nth_rewrite 1 [← hnd]
    exact div_mul_cancel₀ _ hdenq
  push_cast
  rw [hnum, h10, ← mul_assoc, hqden]

theorem padDigits_spec {F k : Nat} (h : F < 10 ^ k) (hk : 1 ≤ k) :
    (padDigits F k).length = k ∧ (∀ c ∈ padDigits F k, c.isDigit = true) ∧
      digitsVal (padDigits F k) = F := by
  obtain ⟨k', rfl⟩ : ∃ k', k = k' + 1 := ⟨k - 1, by omega⟩
  have hlen : (natDigits F).length ≤ k' + 1 := natDigits_length h
  obtain ⟨h1, h2, h3⟩ := natDigits_spec F
  refine ⟨?_, ?_, ?_⟩
  · rw [padDigits, List.length_append, List.length_replicate]
    omega
  · intro c hc
    rw [padDigits, List.mem_append] at hc
    rcases hc with hc | hc
    · rw [List.eq_of_mem_replicate hc]
      decide
    · exact h2 c hc
  · rw [padDigits, digitsVal_replicate_zero, h3]

theorem floatStrCore_spec {q : ℚ} (hq : 0 ≤ q) (hdec : ∃ m, q.den ∣ 10 ^ m) :
    pyFloatCore (floatStrCore q) = some q ∧
    (∀ c ∈ floatStrCore q, c.isDigit = true ∨ c = '.') ∧
    (∃ c cs, floatStrCore q = c :: cs ∧ c.isDigit = true) ∧
    '.' ∈ floatStrCore q := by
  have hden := den_dvd_pow_fracDigitsLen hdec
  have hk1 : 1 ≤ fracDigitsLen q := le_max_left 1 _
  have hpow : 0 < 10 ^ fracDigitsLen q := pow_pos (by omega) _
  have hNq : ((q.num.toNat * 10 ^ fracDigitsLen q / q.den : ℕ) : ℚ) =
      q * 10 ^ fracDigitsLen q := scaled_eq hq hden
  have hfe : floatStrCore q =
      natDigits (q.num.toNat * 10 ^ fracDigitsLen q / q.den / 10 ^ fracDigitsLen q) ++
        '.' :: padDigits (q.num.toNat * 10 ^ fracDigitsLen q / q.den % 10 ^ fracDigitsLen q)
          (fracDigitsLen q) := rfl
  have hFlt : q.num.toNat * 10 ^ fracDigitsLen q / q.den % 10 ^ fracDigitsLen q <
      10 ^ fracDigitsLen q := Nat.mod_lt _ hpow
  obtain ⟨hp1, hp2, hp3⟩ := padDigits_spec hFlt hk1
  obtain ⟨hip1, hip2, hip3⟩ :=
    natDigits_spec (q.num.toNat * 10 ^ fracDigitsLen q / q.den / 10 ^ fracDigitsLen q)
  refine ⟨?_, ?_, ?_, ?_⟩
  · rw [hfe, pyFloatCore, takeWhile_all_append hip2 (by decide), List.drop_left]
    rw [pyFloatSplit]
    have hipne : (natDigits (q.num.toNat * 10 ^ fracDigitsLen q / q.den /
        10 ^ fracDigitsLen q)).isEmpty = false := by
      cases hl : natDigits (q.num.toNat * 10 ^ fracDigitsLen q / q.den /
          10 ^ fracDigitsLen q) with
      | nil => exact absurd hl hip1
      | cons a l => rfl
    have hcond : ((padDigits (q.num.toNat * 10 ^ fracDigitsLen q / q.den %
          10 ^ fracDigitsLen q) (fracDigitsLen q)).all Char.isDigit &&
        !((natDigits (q.num.toNat * 10 ^ fracDigitsLen q / q.den /
            10 ^ fracDigitsLen q)).isEmpty &&
          (padDigits (q.num.toNat * 10 ^ fracDigitsLen q / q.den %
            10 ^ fracDigitsLen q) (fracDigitsLen q)).isEmpty)) = true := by
      rw [List.all_eq_true.2 hp2, hipne]
      rfl
    rw [if_pos rfl, if_pos hcond]
    rw [hip3, hp1, hp3]
    have hsum : q.num.toNat * 10 ^ fracDigitsLen q / q.den / 10 ^ fracDigitsLen q *
        10 ^ fracDigitsLen q +
        q.num.toNat * 10 ^ fracDigitsLen q / q.den % 10 ^ fracDigitsLen q =
        q.num.toNat * 10 ^ fracDigitsLen q / q.den := by
      rw [mul_comm]
      exact Nat.div_add_mod _ _
    have hcast : ((q.num.toNat * 10 ^ fracDigitsLen q / q.den / 10 ^ fracDigitsLen q :
          ℕ) : ℤ) * (10 : ℤ) ^ fracDigitsLen q +
        ((q.num.toNat * 10 ^ fracDigitsLen q / q.den % 10 ^ fracDigitsLen q : ℕ) : ℤ) =
        ((q.num.toNat * 10 ^ fracDigitsLen q / q.den : ℕ) : ℤ) := by
      exact_mod_cast hsum
    congr 1
    rw [hcast]
    have hmk : mkRat (q.num.toNat * 10 ^ fracDigitsLen q / q.den : ℕ)
        (10 ^ fracDigitsLen q) =
        ((q.num.toNat * 10 ^ fracDigitsLen q / q.den : ℕ) : ℚ) /
          ((10 ^ fracDigitsLen q : ℕ) : ℚ) := by
      rw [Rat.mkRat_eq_divInt, Rat.divInt_eq_div, Int.cast_natCast, Int.cast_natCast]
    rw [hmk, hNq]
    rw [show (((10 : ℕ) ^ fracDigitsLen q : ℕ) : ℚ) = (10 : ℚ) ^ fracDigitsLen q from by
      push_cast
      ring]
    rw [mul_div_assoc, div_self (by positivity), mul_one]
  · intro c hc
    rw [hfe, List.mem_append] at hc
    rcases hc with hc | hc
    · exact Or.inl (hip2 c hc)
    · rcases List.mem_cons.1 hc with rfl | hc
      · exact Or.inr rfl
      · exact Or.inl (hp2 c hc)
  · cases hl : natDigits (q.num.toNat * 10 ^ fracDigitsLen q / q.den /
        10 ^ fracDigitsLen q) with
    | nil => exact absurd hl hip1
    | cons a l =>
      refine ⟨a, l ++ '.' :: padDigits (q.num.toNat * 10 ^ fracDigitsLen q / q.den %
          10 ^ fracDigitsLen q) (fracDigitsLen q), ?_, ?_⟩
      · rw [hfe, hl]
        rfl
      · exact hip2 a (hl ▸ List.mem_cons_self a l)
  · rw [hfe, List.mem_append]
    exact Or.inr (List.mem_cons_self _ _)

theorem digit_or_dot_tokChar {c : Char} (h : c.isDigit = true ∨ c = '.') :
    isWs c = false ∧ c ≠ '(' ∧ c ≠ ')' := by
  rcases h with h | rfl
  · obtain ⟨h1, h2, _, _, _⟩ := isDigit_ne h
    exact ⟨isWs_of_isDigit h, h1, h2⟩
  · exact ⟨by decide, by decide, by decide⟩

theorem floatStr_spec {q : ℚ} (hdec : ∃ m, q.den ∣ 10 ^ m) :
    pyIntParse (floatStr q) = Option.none ∧
    pyFloatParse (floatStr q) = some q ∧
    tokOkChars (floatStr q) := by
  by_cases hneg : q < 0
  · have hfe : floatStr q = '-' :: floatStrCore (-q) := by rw [floatStr, if_pos hneg]
    have hq' : 0 ≤ -q := by linarith
    have hdec' : ∃ m, (-q).den ∣ 10 ^ m := by
      obtain ⟨m, hm⟩ := hdec
      exact ⟨m, by rw [Rat.neg_den]; exact hm⟩
    obtain ⟨hc1, hc2, hc3, hc4⟩ := floatStrCore_spec hq' hdec'
    refine ⟨?_, ?_, ?_⟩
    · rw [hfe, pyIntParse, if_neg (by decide), if_pos rfl,
        natCore_none_of_dot hc4]
      rfl
    · rw [hfe, pyFloatParse, if_neg (by decide), if_pos rfl, hc1]
      simp
    · refine ⟨by simp [hfe], ?_⟩
      intro c hc
      rw [hfe] at hc
      rcases List.mem_cons.1 hc with rfl | hc
      · exact ⟨by decide, by decide, by decide⟩
      · exact digit_or_dot_tokChar (hc2 c hc)
  · have hq : 0 ≤ q := not_lt.1 hneg
    have hfe : floatStr q = floatStrCore q := by rw [floatStr, if_neg hneg]
    obtain ⟨hc1, hc2, hc3, hc4⟩ := floatStrCore_spec hq hdec
    obtain ⟨c, cs, hcons, hcdig⟩ := hc3
    obtain ⟨_, _, hcp, hcm, _⟩ := isDigit_ne hcdig
    refine ⟨?_, ?_, ?_⟩
    · rw [hfe, hcons, pyIntParse, if_neg hcp, if_neg hcm, ← hcons,
        natCore_none_of_dot (hcons ▸ hc4)]
      rfl
    · rw [hfe, hcons, pyFloatParse, if_neg hcp, if_neg hcm, ← hcons]
      exact hcons ▸ hc1
    · refine ⟨by rw [hfe, hcons]; simp, ?_⟩
      intro c' hc'
      rw [hfe] at hc'
      exact digit_or_dot_tokChar (hc2 c' hc')

theorem atom_floatStr {q : ℚ} (hdec : ∃ m, q.den ∣ 10 ^ m) :
    atom ⟨floatStr q⟩ = .float q := by
  obtain ⟨h1, h2, _⟩ := floatStr_spec hdec
  have hd : (⟨floatStr q⟩ : String).data = floatStr q := rfl
  rw [atom, hd, h1, h2]

theorem intStr_tokOk (n : Int) : tokOkChars (intStr n) := by
  rw [intStr]
  by_cases hn : n < 0
  · rw [if_pos hn]
    obtain ⟨h1, h2, _⟩ := natDigits_spec (-n).toNat
    refine ⟨by simp, ?_⟩
    intro c hc
    rcases List.mem_cons.1 hc with rfl | hc
    · exact ⟨by decide, by decide, by decide⟩
    · exact digit_or_dot_tokChar (Or.inl (h2 c hc))
  · rw [if_neg hn]
    obtain ⟨h1, h2, _⟩ := natDigits_spec n.toNat
    exact ⟨h1, fun c hc => digit_or_dot_tokChar (Or.inl (h2 c hc))⟩

theorem good_atom {t : String} (h : tokOkChars t.data) : Good (atom t) := by
  cases hi : pyIntParse t.data with
  | some n =>
    have : atom t = .int n := by rw [atom, hi]
    rw [this]
    exact Good.int n
  | none =>
    cases hf : pyFloatParse t.data with
    | some q =>
      have : atom t = .float q := by rw [atom, hi, hf]
      rw [this]
      exact Good.float q (pyFloatParse_decimal hf)
    | none =>
      have hsym : atom t = .sym t := by rw [atom, hi, hf]
      rw [hsym]
      exact Good.sym t h hsym

/-! ### Tokenizer output shape (C6) -/

theorem splitWsAux_ws_cons {c : Char} (hws : isWs c = true) (cs acc : List Char) :
    splitWsAux (c :: cs) acc =
      (if acc.isEmpty then [] else [acc.reverse]) ++ splitWsAux cs [] := by
  rw [splitWsAux, if_pos hws]
  by_cases ha : acc.isEmpty
  · rw [if_pos ha, if_pos ha]
    rfl
  · rw [if_neg ha, if_neg ha]
    rfl

theorem splitWsAux_nonws_cons {c : Char} (hws : isWs c = false) (cs acc : List Char) :
    splitWsAux (c :: cs) acc = splitWsAux cs (c :: acc) := by
  rw [splitWsAux, if_neg (by rw [hws]; exact Bool.false_ne_true)]

theorem splitWsAux_tokens_wf : ∀ cs acc, (∀ c ∈ acc, isWs c = false) →
    ∀ t ∈ splitWsAux cs acc, t ≠ [] ∧ ∀ c ∈ t, isWs c = false := by
  intro cs
  induction cs with
  | nil =>
    intro acc hacc t ht
    rw [splitWsAux] at ht
    by_cases ha : acc.isEmpty
    · rw [if_pos ha] at ht
      cases ht
    · rw [if_neg ha] at ht
      rcases List.mem_singleton.1 ht with rfl
      refine ⟨?_, ?_⟩
      · simp only [ne_eq, List.reverse_eq_nil_iff]
        intro hnil
        rw [hnil] at ha
        exact ha rfl
      · intro c hc
        exact hacc c (List.mem_reverse.1 hc)
  | cons c cs ih =>
    intro acc hacc t ht
    by_cases hws : isWs c
    · rw [splitWsAux_ws_cons hws] at ht
      rw [List.mem_append] at ht
      rcases ht with ht | ht
      · by_cases ha : acc.isEmpty
        · rw [if_pos ha] at ht
          cases ht
        · rw [if_neg ha] at ht
          rcases List.mem_singleton.1 ht with rfl
          refine ⟨?_, ?_⟩
          · simp only [ne_eq, List.reverse_eq_nil_iff]
            intro hnil
            rw [hnil] at ha
            exact ha rfl
          · intro c' hc'
            exact hacc c' (List.mem_reverse.1 hc')
      · exact ih [] (by intro c' hc'; cases hc') t ht
    · rw [splitWsAux_nonws_cons (Bool.of_not_eq_true hws)] at ht
      refine ih (c :: acc) ?_ t ht
      intro c' hc'
      rcases List.mem_cons.1 hc' with rfl | hc'
      · exact Bool.of_not_eq_true hws
      · exact hacc c' hc'

theorem splitWsAux_pad_parens : ∀ cs acc,
    (∀ c ∈ acc, c ≠ '(' ∧ c ≠ ')' ∧ isWs c = false) →
    ∀ t ∈ splitWsAux (pad cs) acc,
      t = ['('] ∨ t = [')'] ∨ ∀ c ∈ t, c ≠ '(' ∧ c ≠ ')' := by
  intro cs
  induction cs with
  | nil =>
    intro acc hacc t ht
    rw [pad, splitWsAux] at ht
    by_cases ha : acc.isEmpty
    · rw [if_pos ha] at ht
      cases ht
    · rw [if_neg ha] at ht
      rcases List.mem_singleton.1 ht with rfl
      refine Or.inr (Or.inr ?_)
      intro c hc
      obtain ⟨h1, h2, _⟩ := hacc c (List.mem_reverse.1 hc)
      exact ⟨h1, h2⟩
  | cons c cs ih =>
    intro acc hacc t ht
    by_cases hp : c = '('
    · subst hp
      rw [show pad ('(' :: cs) = ' ' :: '(' :: ' ' :: pad cs from by rw [pad]; rfl] at ht
      rw [splitWsAux_ws_cons (by decide),
        splitWsAux_nonws_cons (by decide),
        splitWsAux_ws_cons (by decide)] at ht
      rw [List.mem_append] at ht
      rcases ht with ht | ht
      · by_cases ha : acc.isEmpty
        · rw [if_pos ha] at ht
          cases ht
        · rw [if_neg ha] at ht
          rcases List.mem_singleton.1 ht with rfl
          refine Or.inr (Or.inr ?_)
          intro c' hc'
          obtain ⟨h1, h2, _⟩ := hacc c' (List.mem_reverse.1 hc')
          exact ⟨h1, h2⟩
      · rcases List.mem_cons.1 ht with rfl | ht
        · exact Or.inl rfl
        · exact ih [] (by intro c' hc'; cases hc') t ht
    · by_cases hq : c = ')'
      · subst hq
        rw [show pad (')' :: cs) = ' ' :: ')' :: ' ' :: pad cs from by rw [pad]; rfl] at ht
        rw [splitWsAux_ws_cons (by decide),
          splitWsAux_nonws_cons (by decide),
          splitWsAux_ws_cons (by decide)] at ht
        rw [List.mem_append] at ht
        rcases ht with ht | ht
        · by_cases ha : acc.isEmpty
          · rw [if_pos ha] at ht
            cases ht
          · rw [if_neg ha] at ht
            rcases List.mem_singleton.1 ht with rfl
            refine Or.inr (Or.inr ?_)
            intro c' hc'
            obtain ⟨h1, h2, _⟩ := hacc c' (List.mem_reverse.1 hc')
            exact ⟨h1, h2⟩
        · rcases List.mem_cons.1 ht with rfl | ht
          · exact Or.inr (Or.inl rfl)
          · exact ih [] (by intro c' hc'; cases hc') t ht
      · rw [show pad (c :: cs) = c :: pad cs from by
          rw [pad, if_neg hp, if_neg hq]] at ht
        by_cases hws : isWs c
        · rw [splitWsAux_ws_cons hws] at ht
          rw [List.mem_append] at ht
          rcases ht with ht | ht
          · by_cases ha : acc.isEmpty
            · rw [if_pos ha] at ht
              cases ht
            · rw [if_neg ha] at ht
              rcases List.mem_singleton.1 ht with rfl
              refine Or.inr (Or.inr ?_)
              intro c' hc'
              obtain ⟨h1, h2, _⟩ := hacc c' (List.mem_reverse.1 hc')
              exact ⟨h1, h2⟩
          · exact ih [] (by intro c' hc'; cases hc') t ht
        · rw [splitWsAux_nonws_cons (Bool.of_not_eq_true hws)] at ht
          refine ih (c :: acc) ?_ t ht
          intro c' hc'
          rcases List.mem_cons.1 hc' with rfl | hc'
          · exact ⟨hp, hq, Bool.of_not_eq_true hws⟩
          · exact hacc c' hc'

theorem tokenize_parseTok (s : String) : ∀ t ∈ tokenize s, parseTok t := by
  intro t ht
  rw [tokenize] at ht
  obtain ⟨tc, htc, rfl⟩ := List.mem_map.1 ht
  have hwf := splitWsAux_tokens_wf (pad s.data) [] (by intro c hc; cases hc) tc htc
  have hpar := splitWsAux_pad_parens s.data [] (by intro c hc; cases hc) tc htc
  rcases hpar with rfl | rfl | hfree
  · exact Or.inl rfl
  · exact Or.inr (Or.inl rfl)
  · refine Or.inr (Or.inr ⟨hwf.1, ?_⟩)
    intro c hc
    exact ⟨hwf.2 c hc, (hfree c hc).1, (hfree c hc).2⟩

/-! ### The reader produces Good expressions (C6) -/

theorem read_good : ∀ f : Nat,
    (∀ ts e rest, (∀ t ∈ ts, parseTok t) → readFrom f ts = .ok (e, rest) →
      Good e ∧ ∀ t ∈ rest, parseTok t) ∧
    (∀ ts xs rest, (∀ t ∈ ts, parseTok t) → readSeq f ts = .ok (xs, rest) →
      (∀ x ∈ xs, Good x) ∧ ∀ t ∈ rest, parseTok t) := by
  intro f
  induction f with
  | zero =>
    constructor
    · intro ts e rest _ h
      rw [readFrom] at h
      cases h
    · intro ts xs rest _ h
      rw [readSeq] at h
      cases h
  | succ f ih =>
    constructor
    · intro ts e rest hts h
      cases ts with
      | nil =>
        rw [readFrom] at h
        cases h
      | cons t ts' =>
        rw [readFrom] at h
        by_cases h1 : t = "("
        · rw [if_pos h1] at h
          cases hseq : readSeq f ts' with
          | error err =>
            rw [hseq] at h
            cases h
          | ok p =>
            obtain ⟨xs, rest'⟩ := p
            rw [hseq] at h
            injection h with h'
            rw [Prod.mk.injEq] at h'
            obtain ⟨rfl, rfl⟩ := h'
            obtain ⟨hgood, hrest⟩ :=
              ih.2 ts' xs rest' (fun u hu => hts u (List.mem_cons_of_mem t hu)) hseq
            exact ⟨Good.list xs hgood, hrest⟩
        · rw [if_neg h1] at h
          by_cases h2 : t = ")"
          · rw [if_pos h2] at h
            cases h
          · rw [if_neg h2] at h
            injection h with h'
            rw [Prod.mk.injEq] at h'
            obtain ⟨rfl, rfl⟩ := h'
            have hpt := hts t (List.mem_cons_self t ts')
            rcases hpt with rfl | rfl | hok
            · exact absurd rfl h1
            · exact absurd rfl h2
            · exact ⟨good_atom hok, fun u hu => hts u (List.mem_cons_of_mem t hu)⟩
    · intro ts xs rest hts h
      cases ts with
      | nil =>
        rw [readSeq] at h
        cases h
      | cons t ts' =>
        rw [readSeq] at h
        by_cases h1 : t = ")"
        · rw [if_pos h1] at h
          injection h with h'
          rw [Prod.mk.injEq] at h'
          obtain ⟨rfl, rfl⟩ := h'
          refine ⟨?_, fun u hu => hts u (List.mem_cons_of_mem t hu)⟩
          intro x hx
          cases hx
        · rw [if_neg h1] at h
          cases hrf : readFrom f (t :: ts') with
          | error err =>
            rw [hrf] at h
            cases h
          | ok p =>
            obtain ⟨e1, r1⟩ := p
            rw [hrf] at h
            obtain ⟨hg1, hr1⟩ := ih.1 (t :: ts') e1 r1 hts hrf
            have h2 : (match readSeq f r1 with
                | Except.error err => (Except.error err : Except Err (List Expr × List String))
                | Except.ok (xs2, r2) => Except.ok (e1 :: xs2, r2)) =
                Except.ok (xs, rest) := h
            cases hsq : readSeq f r1 with
            | error err =>
              rw [hsq] at h2
              cases h2
            | ok p2 =>
              obtain ⟨xs2, r2⟩ := p2
              rw [hsq] at h2
              injection h2 with h'
              rw [Prod.mk.injEq] at h'
              obtain ⟨rfl, rfl⟩ := h'
              obtain ⟨hg2, hr2⟩ := ih.2 r1 xs2 r2 hr1 hsq
              refine ⟨?_, hr2⟩
              intro x hx
              rcases List.mem_cons.1 hx with rfl | hx
              · exact hg1
              · exact hg2 x hx

theorem parse_good {s : String} {e : Expr} (h : parse s = .ok e) : Good e := by
  rw [parse] at h
  cases hrf : readFrom (2 * (tokenize s).length + 2) (tokenize s) with
  | error err =>
    rw [hrf] at h
    cases h
  | ok p =>
    obtain ⟨e', rest⟩ := p
    rw [hrf] at h
    injection h with h'
    subst h'
    exact ((read_good _).1 _ _ _ (tokenize_parseTok s) hrf).1

/-! ### Tokenizing rendered text (C6) -/

theorem pad_append : ∀ a b : List Char, pad (a ++ b) = pad a ++ pad b := by
  intro a b
  induction a with
  | nil => rfl
  | cons c cs ih =>
    rw [List.cons_append, pad, pad]
    by_cases h1 : c = '('
    · rw [if_pos h1, if_pos h1, ih]
      rfl
    · rw [if_neg h1, if_neg h1]
      by_cases h2 : c = ')'
      · rw [if_pos h2, if_pos h2, ih]
        rfl
      · rw [if_neg h2, if_neg h2, ih]
        rfl

theorem pad_id {t : List Char} (h : ∀ c ∈ t, c ≠ '(' ∧ c ≠ ')') : pad t = t := by
  induction t with
  | nil => rfl
  | cons c cs ih =>
    obtain ⟨h1, h2⟩ := h c (List.mem_cons_self c cs)
    rw [pad, if_neg h1, if_neg h2, ih (fun c' hc' => h c' (List.mem_cons_of_mem c hc'))]

theorem splitWs_cons_ws {c : Char} (h : isWs c = true) (k : List Char) :
    splitWs (c :: k) = splitWs k := by
  rw [splitWs, splitWsAux_ws_cons h]
  rfl

theorem splitWsAux_run : ∀ (tok k acc : List Char), (∀ c ∈ tok, isWs c = false) →
    (k = [] ∨ ∃ k', k = ' ' :: k') →
    splitWsAux (tok ++ k) acc =
      (if acc.reverse ++ tok = [] then [] else [acc.reverse ++ tok]) ++ splitWs k := by
  intro tok
  induction tok with
  | nil =>
    intro k acc _ hk
    rw [List.nil_append, List.append_nil]
    have hiff : acc.reverse = [] ↔ acc.isEmpty = true := by
      rw [List.reverse_eq_nil_iff]
      exact List.isEmpty_iff.symm
    rcases hk with rfl | ⟨k', rfl⟩
    · rw [splitWsAux]
      by_cases ha : acc.isEmpty
      · rw [if_pos ha, if_pos (hiff.2 ha)]
        rfl
      · rw [if_neg ha, if_neg (fun hh => ha (hiff.1 hh))]
        rfl
    · rw [splitWsAux_ws_cons (by decide), splitWs_cons_ws (by decide)]
      by_cases ha : acc.isEmpty
      · rw [if_pos ha, if_pos (hiff.2 ha)]
        rfl
      · rw [if_neg ha, if_neg (fun hh => ha (hiff.1 hh))]
        rfl
  | cons c tok' ih =>
    intro k acc htok hk
    rw [List.cons_append,
      splitWsAux_nonws_cons (htok c (List.mem_cons_self c tok')),
      ih k (c :: acc) (fun c' hc' => htok c' (List.mem_cons_of_mem c hc')) hk]
    have hrw : (c :: acc).reverse ++ tok' = acc.reverse ++ c :: tok' := by
      rw [List.reverse_cons, List.append_assoc]
      rfl
    rw [hrw]

theorem splitWs_token {tok : List Char} (h1 : tok ≠ [])
    (h2 : ∀ c ∈ tok, isWs c = false) (k : List Char)
    (hk : k = [] ∨ ∃ k', k = ' ' :: k') :
    splitWs (tok ++ k) = tok :: splitWs k := by
  rw [splitWs, splitWsAux_run tok k [] h2 hk]
  rw [List.reverse_nil, List.nil_append, if_neg h1]
  rfl

theorem renderChars_atom_tok : ∀ {e : Expr}, Good e → (∀ xs, e ≠ .list xs) →
    tokOkChars (renderChars e) ∧ atom ⟨renderChars e⟩ = e := by
  intro e hGood hne
  cases hGood with
  | int n => exact ⟨intStr_tokOk n, atom_intStr n⟩
  | float q hdec =>
    exact ⟨(floatStr_spec hdec).2.2, atom_floatStr hdec⟩
  | sym s h1 h2 =>
    refine ⟨h1, ?_⟩
    have : (⟨(renderChars (.sym s))⟩ : String) = s := rfl
    rw [this]
    exact h2
  | list xs h => exact absurd rfl (hne xs)

theorem renderToks_head : ∀ {e : Expr}, Good e →
    ∃ t ts', renderToks e = t :: ts' ∧ t ≠ [')'] := by
  intro e hGood
  cases hGood with
  | int n =>
    refine ⟨intStr n, [], rfl, ?_⟩
    intro hh
    obtain ⟨_, h2⟩ := intStr_tokOk n
    exact (h2 ')' (hh ▸ List.mem_cons_self ')' [])).2.2 rfl
  | float q hdec =>
    refine ⟨floatStr q, [], rfl, ?_⟩
    intro hh
    obtain ⟨_, h2⟩ := (floatStr_spec hdec).2.2
    exact (h2 ')' (hh ▸ List.mem_cons_self ')' [])).2.2 rfl
  | sym s h1 h2 =>
    refine ⟨s.data, [], rfl, ?_⟩
    intro hh
    exact (h1.2 ')' (hh ▸ List.mem_cons_self ')' [])).2.2 rfl
  | list xs h =>
    exact ⟨['('], renderToksL xs ++ [[')']], rfl, by intro hh; cases hh⟩

theorem splitWs_pad_render : ∀ {e : Expr}, Good e → ∀ k : List Char,
    (k = [] ∨ ∃ k', k = ' ' :: k') →
    splitWs (pad (renderChars e) ++ k) = renderToks e ++ splitWs k := by
  intro e hGood
  induction hGood with
  | int n =>
    intro k hk
    obtain ⟨h1, h2⟩ := intStr_tokOk n
    rw [show renderChars (.int n) = intStr n from rfl,
      pad_id (fun c hc => ⟨(h2 c hc).2.1, (h2 c hc).2.2⟩),
      splitWs_token h1 (fun c hc => (h2 c hc).1) k hk]
    rfl
  | float q hdec =>
    intro k hk
    obtain ⟨h1, h2⟩ := (floatStr_spec hdec).2.2
    rw [show renderChars (.float q) = floatStr q from rfl,
      pad_id (fun c hc => ⟨(h2 c hc).2.1, (h2 c hc).2.2⟩),
      splitWs_token h1 (fun c hc => (h2 c hc).1) k hk]
    rfl
  | sym s h1 h2 =>
    intro k hk
    rw [show renderChars (.sym s) = s.data from rfl,
      pad_id (fun c hc => ⟨(h1.2 c hc).2.1, (h1.2 c hc).2.2⟩),
      splitWs_token h1.1 (fun c hc => (h1.2 c hc).1) k hk]
    rfl
  | list xs h ih =>
    intro k hk
    have hpad : pad (renderChars (.list xs)) ++ k =
        ' ' :: '(' :: ' ' :: (pad (renderSep xs) ++ (' ' :: ')' :: ' ' :: k)) := by
      rw [show renderChars (.list xs) = '(' :: (renderSep xs ++ [')']) from rfl,
        pad, if_pos rfl, pad_append]
      simp [pad]
    have hparen : ∀ M, splitWs ('(' :: ' ' :: M) = ['('] :: splitWs M := by
      intro M
      rw [splitWs, splitWsAux_nonws_cons (by decide), splitWsAux_ws_cons (by decide)]
      rfl
    have hrp : ∀ M, splitWs (')' :: ' ' :: M) = [')'] :: splitWs M := by
      intro M
      rw [splitWs, splitWsAux_nonws_cons (by decide), splitWsAux_ws_cons (by decide)]
      rfl
    have hinner : ∀ ys,
        (∀ y ∈ ys, ∀ k2 : List Char, (k2 = [] ∨ ∃ k', k2 = ' ' :: k') →
          splitWs (pad (renderChars y) ++ k2) = renderToks y ++ splitWs k2) →
        ∀ k2 : List Char, (k2 = [] ∨ ∃ k', k2 = ' ' :: k') →
        splitWs (pad (renderSep ys) ++ k2) = renderToksL ys ++ splitWs k2 := by
      intro ys
      induction ys with
      | nil =>
        intro _ k2 _
        rw [show renderSep [] = ([] : List Char) from rfl]
        rfl
      | cons y ys' ihy =>
        intro hys k2 hk2
        cases ys' with
        | nil =>
          rw [show renderSep [y] = renderChars y from rfl,
            hys y (List.mem_cons_self y []) k2 hk2]
          rw [show renderToksL [y] = renderToks y ++ renderToksL [] from rfl,
            show renderToksL ([] : List Expr) = [] from rfl]
          simp
        | cons z zs =>
          rw [show renderSep (y :: z :: zs) =
              renderChars y ++ ' ' :: renderSep (z :: zs) from rfl,
            pad_append,
            show pad (' ' :: renderSep (z :: zs)) =
              ' ' :: pad (renderSep (z :: zs)) from by rw [pad]; rfl]
          have hassoc : (pad (renderChars y) ++ ' ' :: pad (renderSep (z :: zs))) ++ k2 =
              pad (renderChars y) ++ (' ' :: (pad (renderSep (z :: zs)) ++ k2)) := by
            simp
          rw [hassoc,
            hys y (List.mem_cons_self y (z :: zs)) _ (Or.inr ⟨_, rfl⟩),
            splitWs_cons_ws (by decide),
            ihy (fun y' hy' => hys y' (List.mem_cons_of_mem y hy')) k2 hk2,
            show renderToksL (y :: z :: zs) =
              renderToks y ++ renderToksL (z :: zs) from rfl,
            List.append_assoc]
    rw [hpad, splitWs_cons_ws (by decide), hparen,
      hinner xs ih _ (Or.inr ⟨_, rfl⟩),
      splitWs_cons_ws (by decide), hrp,
      show renderToks (.list xs) = ['('] :: (renderToksL xs ++ [[')']]) from rfl]
    simp

theorem tokenize_lispstr {e : Expr} (h : Good e) :
    tokenize (lispstr e) = (renderToks e).map String.mk := by
  have hdata : (lispstr e).data = renderChars e := rfl
  rw [tokenize, hdata, tokenizeChars]
  have := splitWs_pad_render h [] (Or.inl rfl)
  rw [List.append_nil] at this
  rw [this]
  rw [show splitWs [] = [] from rfl, List.append_nil]

/-! ### Reading back rendered tokens (C6) -/

theorem readFrom_single_tok {e : Expr} (htok : tokOkChars (renderChars e))
    (hatom : atom ⟨renderChars e⟩ = e) (hrt : renderToks e = [renderChars e]) :
    ∀ (rest : List String) (f : Nat), 1 ≤ f →
    readFrom f ((renderToks e).map String.mk ++ rest) = .ok (e, rest) := by
  intro rest f hf
  obtain ⟨f', rfl⟩ : ∃ f', f = f' + 1 := ⟨f - 1, by omega⟩
  rw [hrt, show ([renderChars e].map String.mk) ++ rest =
    (⟨renderChars e⟩ : String) :: rest from by simp]
  have hnp : (⟨renderChars e⟩ : String) ≠ "(" := by
    intro hh
    have hdd : renderChars e = ['('] := congrArg String.data hh
    exact (htok.2 '(' (hdd ▸ List.mem_cons_self '(' [])).2.1 rfl
  have hnq : (⟨renderChars e⟩ : String) ≠ ")" := by
    intro hh
    have hdd : renderChars e = [')'] := congrArg String.data hh
    exact (htok.2 ')' (hdd ▸ List.mem_cons_self ')' [])).2.2 rfl
  rw [readFrom, if_neg hnp, if_neg hnq, hatom]

theorem readFrom_render : ∀ {e : Expr}, Good e →
    ∀ (rest : List String) (f : Nat),
    2 * ((renderToks e).length + rest.length) + 1 ≤ f →
    readFrom f ((renderToks e).map String.mk ++ rest) = .ok (e, rest) := by
  intro e hGood
  induction hGood with
  | int n =>
    intro rest f hb
    exact @readFrom_single_tok (.int n) (intStr_tokOk n) (atom_intStr n) rfl rest f (by omega)
  | float q hdec =>
    intro rest f hb
    exact @readFrom_single_tok (.float q) (floatStr_spec hdec).2.2 (atom_floatStr hdec) rfl
      rest f (by omega)
  | sym s h1 h2 =>
    intro rest f hb
    refine @readFrom_single_tok (.sym s) h1 ?_ rfl rest f (by omega)
    have : (⟨(renderChars (.sym s))⟩ : String) = s := rfl
    rw [this]
    exact h2
  | list xs h ih =>
    intro rest f hb
    have hseq : ∀ ys, (∀ y ∈ ys, Good y) →
        (∀ y ∈ ys, ∀ (r2 : List String) (f2 : Nat),
          2 * ((renderToks y).length + r2.length) + 1 ≤ f2 →
          readFrom f2 ((renderToks y).map String.mk ++ r2) = .ok (y, r2)) →
        ∀ (r2 : List String) (f2 : Nat),
        2 * ((renderToksL ys).length + r2.length) + 4 ≤ f2 →
        readSeq f2 ((renderToksL ys).map String.mk ++ ((⟨[')']⟩ : String) :: r2)) =
          .ok (ys, r2) := by
      intro ys
      induction ys with
      | nil =>
        intro _ _ r2 f2 hb2
        obtain ⟨f2', rfl⟩ : ∃ g, f2 = g + 1 := ⟨f2 - 1, by omega⟩
        rw [show (renderToksL []).map String.mk ++ ((⟨[')']⟩ : String) :: r2) =
          (⟨[')']⟩ : String) :: r2 from rfl]
        rw [readSeq, if_pos rfl]
      | cons y ys' ihy =>
        intro hgood hrd r2 f2 hb2
        obtain ⟨f2', rfl⟩ : ∃ g, f2 = g + 1 := ⟨f2 - 1, by omega⟩
        obtain ⟨t, ts', hy, hneq⟩ := renderToks_head (hgood y (List.mem_cons_self y ys'))
        have htk : (renderToksL (y :: ys')).map String.mk ++ ((⟨[')']⟩ : String) :: r2) =
            (⟨t⟩ : String) :: (ts'.map String.mk ++
              ((renderToksL ys').map String.mk ++ ((⟨[')']⟩ : String) :: r2))) := by
          rw [show renderToksL (y :: ys') = renderToks y ++ renderToksL ys' from rfl, hy]
          simp
        have hne : (⟨t⟩ : String) ≠ ")" := by
          intro hh
          exact hneq (congrArg String.data hh)
        have hback : (⟨t⟩ : String) :: (ts'.map String.mk ++
            ((renderToksL ys').map String.mk ++ ((⟨[')']⟩ : String) :: r2))) =
            (renderToks y).map String.mk ++
              ((renderToksL ys').map String.mk ++ ((⟨[')']⟩ : String) :: r2)) := by
          rw [hy]
          simp
        have hLX : 1 ≤ (renderToks y).length := by
          rw [hy]
          simp
        have hlen2 : ((renderToksL ys').map String.mk ++
            ((⟨[')']⟩ : String) :: r2)).length = (renderToksL ys').length + 1 + r2.length := by
          simp
          omega
        have hLL : (renderToksL (y :: ys')).length =
            (renderToks y).length + (renderToksL ys').length := by
          rw [show renderToksL (y :: ys') = renderToks y ++ renderToksL ys' from rfl]
          simp
        have hRF : readFrom f2' ((renderToks y).map String.mk ++
            ((renderToksL ys').map String.mk ++ ((⟨[')']⟩ : String) :: r2))) =
            .ok (y, (renderToksL ys').map String.mk ++ ((⟨[')']⟩ : String) :: r2)) := by
          refine hrd y (List.mem_cons_self y ys') _ f2' ?_
          rw [hlen2]
          omega
        have hSQ : readSeq f2' ((renderToksL ys').map String.mk ++
            ((⟨[')']⟩ : String) :: r2)) = .ok (ys', r2) := by
          refine ihy (fun u hu => hgood u (List.mem_cons_of_mem y hu))
            (fun u hu => hrd u (List.mem_cons_of_mem y hu)) r2 f2' ?_
          omega
        rw [htk, readSeq, if_neg hne, hback, hRF]
        show (match readSeq f2' ((renderToksL ys').map String.mk ++
            ((⟨[')']⟩ : String) :: r2)) with
          | Except.error err => (Except.error err : Except Err (List Expr × List String))
          | Except.ok (xs2, r3) => Except.ok (y :: xs2, r3)) = Except.ok (y :: ys', r2)
        rw [hSQ]
    obtain ⟨f', rfl⟩ : ∃ g, f = g + 1 := ⟨f - 1, by omega⟩
    have hmap : (renderToks (.list xs)).map String.mk ++ rest =
        (⟨['(']⟩ : String) :: ((renderToksL xs).map String.mk ++
          ((⟨[')']⟩ : String) :: rest)) := by
      rw [show renderToks (.list xs) = ['('] :: (renderToksL xs ++ [[')']]) from rfl]
      simp
    have hlen : (renderToks (.list xs)).length = (renderToksL xs).length + 2 := by
      rw [show renderToks (.list xs) = ['('] :: (renderToksL xs ++ [[')']]) from rfl]
      simp
    have hSQ : readSeq f' ((renderToksL xs).map String.mk ++
        ((⟨[')']⟩ : String) :: rest)) = .ok (xs, rest) := by
      refine hseq xs h ih rest f' ?_
      omega
    rw [hmap, readFrom, if_pos (show (⟨['(']⟩ : String) = "(" from rfl), hSQ]

theorem parse_lispstr {e : Expr} (h : Good e) : parse (lispstr e) = .ok e := by
  rw [parse, tokenize_lispstr h]
  have hlen : ((renderToks e).map String.mk).length = (renderToks e).length := by
    simp
  have hrd := readFrom_render h [] (2 * ((renderToks e).map String.mk).length + 2)
    (by rw [hlen, List.length_nil]; omega)
  rw [List.append_nil] at hrd
  rw [hrd]

/-- C6: rendering a parse result is a normal form.  For every input that
parses, re-parsing the rendering gives back the very same expression (so a
second render equals the first, the claimed idempotent normalization), and
`parse "(+ 1 2)"` is the list `[symbol "+", 1, 2]`. -/
theorem parse_render_stable :
    (∀ s e, parse s = .ok e → parse (lispstr e) = .ok e) ∧
    (∀ s e, parse s = .ok e →
      ∃ e', parse (lispstr e) = .ok e' ∧ lispstr e' = lispstr e) ∧
    parse "(+ 1 2)" = .ok (.list [.sym "+", .int 1, .int 2]) := by
  have hmain : ∀ s e, parse s = .ok e → parse (lispstr e) = .ok e :=
    fun _ e h => parse_lispstr (parse_good h)
  exact ⟨hmain, fun s e h => ⟨e, hmain s e h, rfl⟩, rfl⟩

/-- C6 witness. -/
theorem parse_render_stable_witness :
    parse "(+ 1 2)" = .ok (.list [.sym "+", .int 1, .int 2]) ∧
    parse (lispstr (.list [.sym "+", .int 1, .int 2])) =
      .ok (.list [.sym "+", .int 1, .int 2]) :=
  ⟨rfl, parse_render_stable.1 "(+ 1 2)" (.list [.sym "+", .int 1, .int 2]) rfl⟩

end Lispy
